import Mathlib

/-!
# Forth-Compiler: a shallow embedding of `Compiler.go`

The Go program translates a small Forth dialect into 32-bit x86 assembly text.
This file embeds the compiler state, the preprocessing pass, every emission
handler, the scan loop of `Compile` and the serializer `writeAsm`, and proves
properties of them.

Conventions of the embedding:

* A Go `string` is a Lean `String`; a Go `[]string` is a `List String`.
* The Go map `variables map[string]int` is an association list; a name is
  inserted only when it is absent, so the list never holds a key twice.
* A handler `func (c *Compiler) h(args []string, i *int) error` mutates the
  compiler and the cursor and returns an error.  It is embedded as a function
  returning a `Ret`: the compiler after the call, the cursor after the call and
  the returned error (`none` for `nil`).
* The `for` loop of `Compile` is embedded with a fuel argument; running out of
  fuel is the result `none`, and `scan_terminates` shows that the fuel used by
  `compileTokens` is always enough.
* File reading and writing are outside the embedding: `Compile` takes the
  contents of the input file and returns the text handed to `ioutil.WriteFile`.
* The Go library functions the compiler calls (`regexp`, `strings.Fields`,
  `strings.Join`, `strings.Split`, `strconv.Atoi`, the verbs `%s` and `%d` of
  `fmt`) are embedded from their documented behaviour, on source texts that are
  valid UTF-8 and for the 64-bit `int`.
* What the emitted arithmetic lines do is stated on `Machine`, an embedding of
  the registers, the stack and the instructions these lines use, with 32-bit
  values as natural numbers below `2^32`.
-/

namespace Forth

/-! ## Compiler state -/

/-- The fields of the Go struct `Compiler` other than the dispatch table
`words`, which is the constant function `words` below. -/
structure Compiler where
  /-- The Go field `variables` (a reserved word here): cell name to bss slot. -/
  vars : List (String × Nat)
  labelCounter : Nat
  output : List String
  dataSegment : List String
  bssSegment : List String
deriving DecidableEq, Repr

/-- The state a handler leaves behind: compiler, cursor, returned error. -/
structure Ret where
  c : Compiler
  i : Nat
  err : Option String
deriving DecidableEq, Repr

/-- The state built by `NewCompiler`. -/
def NewCompiler : Compiler :=
  { vars := []
    labelCounter := 0
    output := []
    dataSegment :=
      [ "section .data",
        "fmt_str db \"%d \",0",
        "stack_msg db \"Stack: \",0",
        "stack_newline db \"\",10,0",
        "empty_stack_msg db \"<empty>\",10,0" ]
    bssSegment :=
      [ "section .bss",
        "stack_start resd 1" ] }

/-- The test `_, exists := c.variables[name]`. -/
def Compiler.hasVar (c : Compiler) (name : String) : Bool :=
  (c.vars.lookup name).isSome

/-! ## Go library functions used by the compiler -/

/-- Go `unicode.IsSpace`: the Latin-1 spaces and the code points with the
Unicode White_Space property. -/
def isSpace (ch : Char) : Bool :=
  let n := ch.toNat
  n = 0x09 || n = 0x0A || n = 0x0B || n = 0x0C || n = 0x0D || n = 0x20 ||
  n = 0x85 || n = 0xA0 || n = 0x1680 || (0x2000 ≤ n && n ≤ 0x200A) ||
  n = 0x2028 || n = 0x2029 || n = 0x202F || n = 0x205F || n = 0x3000

/-- The regular-expression replacement `\\[^\n]*` by the empty string, as a
scanner: outside a comment a backslash opens a comment and is dropped; inside a
comment every character up to, and not including, the next newline is
dropped. -/
def stripFrom : Bool → List Char → List Char
  | _, [] => []
  | true, ch :: rest =>
    if ch = '\n' then ch :: stripFrom false rest else stripFrom true rest
  | false, ch :: rest =>
    if ch = '\\' then stripFrom true rest else ch :: stripFrom false rest

/-- The leading word of a text and the fields after that word: the first
component is the maximal space-free prefix, the second the list of
`strings.Fields` of what follows it. -/
def splitWords : List Char → List Char × List (List Char)
  | [] => ([], [])
  | ch :: rest =>
    let r := splitWords rest
    if isSpace ch then ([], if r.1 = [] then r.2 else r.1 :: r.2)
    else (ch :: r.1, r.2)

/-- Go `strings.Fields` on the characters of a string: the maximal runs of
non-space characters, in order. -/
def fieldsChars (s : List Char) : List (List Char) :=
  let r := splitWords s
  if r.1 = [] then r.2 else r.1 :: r.2

/-- Go `strings.Join` on character lists. -/
def joinChars (sep : List Char) : List (List Char) → List Char
  | [] => []
  | [w] => w
  | w :: w2 :: ws => w ++ sep ++ joinChars sep (w2 :: ws)

/-- Go `strings.Split(s, sep)` for a one-character separator, on characters:
the pieces between the separators; a text without separator is the single
piece, so the empty text yields one empty piece. -/
def splitChars (sep : Char) : List Char → List (List Char)
  | [] => [[]]
  | ch :: rest =>
    if ch = sep then [] :: splitChars sep rest
    else
      match splitChars sep rest with
      | [] => [[ch]]
      | w :: ws => (ch :: w) :: ws

/-- Go `strings.Fields`. -/
def strings_Fields (s : String) : List String :=
  (fieldsChars s.data).map String.mk

/-- Go `strings.Join`. -/
def strings_Join (elems : List String) (sep : String) : String :=
  String.mk (joinChars sep.data (elems.map String.data))

/-- Go `strings.Split` with a one-character separator. -/
def strings_Split (s : String) (sep : Char) : List String :=
  (splitChars sep s.data).map String.mk

/-- The value of a string of decimal digits, `none` when a character is not
one of `0`..`9`. -/
def digitsValue : Nat → List Char → Option Nat
  | acc, [] => some acc
  | acc, ch :: rest =>
    if '0'.toNat ≤ ch.toNat ∧ ch.toNat ≤ '9'.toNat then
      digitsValue (acc * 10 + (ch.toNat - '0'.toNat)) rest
    else none

/-- Go `strconv.Atoi` for the 64-bit `int`: an optional sign, then one or more
decimal digits, the value within the range of `int`; every other text is an
error (`none`). -/
def strconv_Atoi (s : String) : Option Int :=
  let body : Bool × List Char :=
    match s.data with
    | '-' :: rest => (true, rest)
    | '+' :: rest => (false, rest)
    | all => (false, all)
  match body.2 with
  | [] => none
  | d :: ds =>
    match digitsValue 0 (d :: ds) with
    | none => none
    | some v =>
      if body.1 then (if v ≤ 2 ^ 63 then some (-(v : Int)) else none)
      else (if v < 2 ^ 63 then some (v : Int) else none)

/-- The verb `%d` of `fmt.Sprintf` on a Go `int`. -/
def fmtInt (n : Int) : String := toString n

/-- The verb `%d` of `fmt.Sprintf` on a non-negative counter. -/
def fmtNat (n : Nat) : String := toString n

/-! ## The compiler -/

/-- Go `preprocess`: strip line comments, then join the fields by one space. -/
def preprocess (src : String) : String :=
  let src1 := String.mk (stripFrom false src.data)
  strings_Join (strings_Fields src1) " "

/-- Go `newLabel`: increments the counter, returns `prefix_counter`. -/
def newLabel (c : Compiler) (pre : String) : Compiler × String :=
  let c1 := { c with labelCounter := c.labelCounter + 1 }
  (c1, pre ++ "_" ++ fmtNat c1.labelCounter)

/-- Go `compileVariable`. -/
def compileVariable (c : Compiler) (args : List String) (i : Nat) : Ret :=
  if i + 1 ≥ args.length then
    { c := c, i := i, err := some "missing variable name after 'variable'" }
  else
    let name := args.getD (i + 1) ""
    if c.hasVar name then
      { c := c, i := i, err := some ("variable '" ++ name ++ "' already exists") }
    else
      let c1 := { c with vars := c.vars ++ [(name, c.bssSegment.length)] }
      let c2 := { c1 with bssSegment := c1.bssSegment ++ [name ++ ": resd 1"] }
      { c := c2, i := i + 2, err := none }

/-- Go `compileLiteral`. -/
def compileLiteral (c : Compiler) (n : Int) : Compiler :=
  { c with output := c.output ++ ["    push " ++ fmtInt n] }

/-- Go `compileVariableRef`. -/
def compileVariableRef (c : Compiler) (name : String) : Compiler :=
  { c with output := c.output ++ ["    push " ++ name] }

/-- Go `compileDup`. -/
def compileDup (c : Compiler) (_args : List String) (i : Nat) : Ret :=
  let c1 := { c with output := c.output ++ ["    mov eax, [esp]"] }
  let c2 := { c1 with output := c1.output ++ ["    push eax"] }
  { c := c2, i := i + 1, err := none }

/-- Go `compileDrop`. -/
def compileDrop (c : Compiler) (_args : List String) (i : Nat) : Ret :=
  { c := { c with output := c.output ++ ["    add esp, 4"] }, i := i + 1, err := none }

/-- Go `compileSwap`. -/
def compileSwap (c : Compiler) (_args : List String) (i : Nat) : Ret :=
  { c := { c with output := c.output ++
      [ "    pop eax",
        "    pop ebx",
        "    push eax",
        "    push ebx" ] },
    i := i + 1, err := none }

/-- Go `compileAdd`. -/
def compileAdd (c : Compiler) (_args : List String) (i : Nat) : Ret :=
  { c := { c with output := c.output ++
      [ "    pop eax",
        "    add [esp], eax" ] },
    i := i + 1, err := none }

/-- Go `compileSub`. -/
def compileSub (c : Compiler) (_args : List String) (i : Nat) : Ret :=
  { c := { c with output := c.output ++
      [ "    pop ebx",
        "    pop eax",
        "    sub eax, ebx",
        "    push eax" ] },
    i := i + 1, err := none }

/-- Go `compileMul`. -/
def compileMul (c : Compiler) (_args : List String) (i : Nat) : Ret :=
  { c := { c with output := c.output ++
      [ "    pop eax",
        "    pop ebx",
        "    imul eax, ebx",
        "    push eax" ] },
    i := i + 1, err := none }

/-- Go `compileNeg`. -/
def compileNeg (c : Compiler) (_args : List String) (i : Nat) : Ret :=
  { c := { c with output := c.output ++ ["    neg dword [esp]"] }, i := i + 1, err := none }

/-- Go `compileOver`. -/
def compileOver (c : Compiler) (_args : List String) (i : Nat) : Ret :=
  { c := { c with output := c.output ++
      [ "    mov eax, [esp+4]",
        "    push eax" ] },
    i := i + 1, err := none }

/-- Go `compileTuck`: calls `compileSwap`, then `compileOver`, each on the same
compiler and the same cursor. -/
def compileTuck (c : Compiler) (args : List String) (i : Nat) : Ret :=
  let r1 := compileSwap c args i
  match r1.err with
  | some e => { r1 with err := some e }
  | none =>
    let r2 := compileOver r1.c args r1.i
    match r2.err with
    | some e => { r2 with err := some e }
    | none => { r2 with err := none }

/-- Go `compileMod`. -/
def compileMod (c : Compiler) (_args : List String) (i : Nat) : Ret :=
  { c := { c with output := c.output ++
      [ "    xor edx, edx",
        "    pop ebx",
        "    pop eax",
        "    idiv ebx",
        "    push edx" ] },
    i := i + 1, err := none }

/-- Go `compileNip`: calls `compileSwap`, then `compileDrop`, each on the same
compiler and the same cursor. -/
def compileNip (c : Compiler) (args : List String) (i : Nat) : Ret :=
  let r1 := compileSwap c args i
  match r1.err with
  | some e => { r1 with err := some e }
  | none =>
    let r2 := compileDrop r1.c args r1.i
    match r2.err with
    | some e => { r2 with err := some e }
    | none => { r2 with err := none }

/-- Go `compileDot`. -/
def compileDot (c : Compiler) (_args : List String) (i : Nat) : Ret :=
  { c := { c with output := c.output ++
      [ "    push dword [esp]",
        "    push fmt_str",
        "    call printf",
        "    add esp, 8",
        "    push stack_newline",
        "    call printf",
        "    add esp, 4",
        "    pop eax" ] },
    i := i + 1, err := none }

/-- Go `compileDotS`. -/
def compileDotS (c : Compiler) (_args : List String) (i : Nat) : Ret :=
  let l1 := newLabel c "print_stack"
  let startLabel := l1.2
  let l2 := newLabel l1.1 "end_stack"
  let endLabel := l2.2
  { c := { l2.1 with output := l2.1.output ++
      [ "    push stack_msg",
        "    call printf",
        "    add esp, 4",
        "    mov ecx, esp",
        startLabel ++ ":",
        "    cmp ecx, [stack_start]",
        "    jae " ++ endLabel,
        "    push ecx",
        "    push dword [ecx]",
        "    push fmt_str",
        "    call printf",
        "    add esp, 8",
        "    pop ecx",
        "    add ecx, 4",
        "    jmp " ++ startLabel,
        endLabel ++ ":",
        "    push stack_newline",
        "    call printf",
        "    add esp, 4" ] },
    i := i + 1, err := none }

/-- Go `compileStore`. -/
def compileStore (c : Compiler) (_args : List String) (i : Nat) : Ret :=
  { c := { c with output := c.output ++
      [ "    pop ebx",
        "    pop eax",
        "    mov [ebx], eax" ] },
    i := i + 1, err := none }

/-- Go `compileFetch`. -/
def compileFetch (c : Compiler) (_args : List String) (i : Nat) : Ret :=
  { c := { c with output := c.output ++
      [ "    pop eax",
        "    mov eax, [eax]",
        "    push eax" ] },
    i := i + 1, err := none }

/-- The dispatch table `c.words` set up by `NewCompiler`. -/
def words (tok : String) : Option (Compiler → List String → Nat → Ret) :=
  if tok = "+" then some compileAdd
  else if tok = "-" then some compileSub
  else if tok = "*" then some compileMul
  else if tok = "dup" then some compileDup
  else if tok = "swap" then some compileSwap
  else if tok = "tuck" then some compileTuck
  else if tok = "neg" then some compileNeg
  else if tok = "drop" then some compileDrop
  else if tok = "over" then some compileOver
  else if tok = "mod" then some compileMod
  else if tok = "nip" then some compileNip
  else if tok = "." then some compileDot
  else if tok = ".s" then some compileDotS
  else if tok = "!" then some compileStore
  else if tok = "@" then some compileFetch
  else if tok = "variable" then some compileVariable
  else none

/-- The body of the `for` loop of `Compile` at cursor `i`, where
`tok = tokens[i]`.  The source calls the table entry in two branches, one for
`variable` and one for the other words, with the same text; `return err` is the
result with its error. -/
def body (c : Compiler) (tokens : List String) (i : Nat) (tok : String) : Ret :=
  match words tok with
  | some fn =>
    if tok = "variable" then
      let r := fn c tokens i
      match r.err with
      | some e => { r with err := some e }
      | none => r
    else
      let r := fn c tokens i
      match r.err with
      | some e => { r with err := some e }
      | none => r
  | none =>
    match strconv_Atoi tok with
    | some n => { c := compileLiteral c n, i := i + 1, err := none }
    | none =>
      if c.hasVar tok then
        { c := compileVariableRef c tok, i := i + 1, err := none }
      else
        { c := c, i := i, err := some ("unknown word or invalid number: " ++ tok) }

/-- The loop `for i := 0; i < len(tokens); { ... }` of `Compile`, started at
cursor `i` in state `c`.  `none`: the fuel ran out.  Otherwise the compiler at
the exit of the loop and the error returned, if any. -/
def scan : Nat → Compiler → List String → Nat → Option (Compiler × Option String)
  | 0, _, _, _ => none
  | fuel + 1, c, tokens, i =>
    if h : i < tokens.length then
      let r := body c tokens i tokens[i]
      match r.err with
      | some e => some (r.c, some e)
      | none => scan fuel r.c tokens r.i
    else some (c, none)

/-- The lines `writeAsm` joins. -/
def asmLines (c : Compiler) : List String :=
  [ "global main",
    "extern printf",
    "section .text",
    "main:",
    "    mov [stack_start], esp" ]
  ++ c.output
  ++ [ "    xor eax, eax",
       "    ret" ]
  ++ c.dataSegment
  ++ c.bssSegment

/-- Go `writeAsm`: the text handed to `ioutil.WriteFile`. -/
def writeAsm (c : Compiler) : String :=
  strings_Join (asmLines c) "\n"

/-- The part of `Compile` after tokenisation: the scan loop on a fresh compiler
followed by `writeAsm`.  `some (.ok text)`: compilation succeeded and `text` is
written; `some (.error e)`: `Compile` returned the error `e` and wrote
nothing; `none`: the fuel ran out. -/
def compileTokens (tokens : List String) : Option (Except String String) :=
  match scan (tokens.length + 1) NewCompiler tokens 0 with
  | none => none
  | some (_, some e) => some (.error e)
  | some (c, none) => some (.ok (writeAsm c))

/-- Go `Compile` on the contents `data` of the input file. -/
def Compile (data : String) : Option (Except String String) :=
  let src := preprocess data
  let tokens := strings_Split src ' '
  compileTokens tokens

/-! ## Vocabulary of the statements -/

/-- A line of the instruction log either is indented (starts with a blank) or
is a label definition (ends with a colon). -/
def LogLine (l : String) : Prop :=
  l.data.head? = some ' ' ∨ l.data.getLast? = some ':'

/-- A text without newline character: a single line. -/
def NoNewline (l : String) : Prop :=
  '\n' ∉ l.data

/-- What every vocabulary handler other than `variable` does: it returns no
error, moves the cursor forward, leaves symbol table, data and bss segments
alone and appends well-shaped single lines to the log. -/
structure EmitsOnly (fn : Compiler → List String → Nat → Ret) : Prop where
  err : ∀ c args i, (fn c args i).err = none
  adv : ∀ c args i, i < (fn c args i).i
  vars : ∀ c args i, (fn c args i).c.vars = c.vars
  data : ∀ c args i, (fn c args i).c.dataSegment = c.dataSegment
  bss : ∀ c args i, (fn c args i).c.bssSegment = c.bssSegment
  out : ∀ c args i, ∃ ls, (fn c args i).c.output = c.output ++ ls ∧
    ∀ l ∈ ls, LogLine l ∧ NoNewline l

/-- The configurations the loop of `Compile` passes through on a token list:
the fresh compiler at cursor 0, and every configuration a step without error
leads to. -/
inductive Reaches (tokens : List String) : Compiler → Nat → Prop
  | start : Reaches tokens NewCompiler 0
  | step (c : Compiler) (i : Nat) (h : i < tokens.length) :
      Reaches tokens c i → (body c tokens i tokens[i]).err = none →
      Reaches tokens (body c tokens i tokens[i]).c (body c tokens i tokens[i]).i

/-- The compiler states in which a declaration `variable n` has been processed:
the state a successful `compileVariable` of the name `n` leaves, and every
state later steps lead to. -/
inductive Declared (n : String) : Compiler → Prop
  | decl (c : Compiler) (args : List String) (i : Nat) :
      args[i + 1]? = some n → (compileVariable c args i).err = none →
      Declared n (compileVariable c args i).c
  | later (c : Compiler) (tokens : List String) (i : Nat) (tok : String) :
      Declared n c → Declared n (body c tokens i tok).c

/-- The names of the `variable` declarations the loop processes from a
configuration on, in the order it processes them: each time the cursor stops at
a `variable` token and the step returns no error, the token after it. -/
def declaredFrom : Nat → Compiler → List String → Nat → List String
  | 0, _, _, _ => []
  | fuel + 1, c, tokens, i =>
    if h : i < tokens.length then
      let r := body c tokens i tokens[i]
      match r.err with
      | some _ => []
      | none =>
        (if tokens[i] = "variable" then [tokens.getD (i + 1) ""] else [])
          ++ declaredFrom fuel r.c tokens r.i
    else []

/-- The declarations a compilation of `tokens` processes, in order. -/
def declarations (tokens : List String) : List String :=
  declaredFrom (tokens.length + 1) NewCompiler tokens 0

/-- The bss line of a cell. -/
def bssEntry (name : String) : String := name ++ ": resd 1"

/-- Successive calls of `newLabel` on one compiler, one call per prefix: the
compiler after the calls and the labels returned, in call order. -/
def newLabels : Compiler → List String → Compiler × List String
  | c, [] => (c, [])
  | c, p :: ps =>
    let r := newLabel c p
    let rs := newLabels r.1 ps
    (rs.1, r.2 :: rs.2)

/-- The lines a handler call appends to the log: the log after the call without
the lines it held before. -/
def appended (fn : Compiler → List String → Nat → Ret) (c : Compiler)
    (args : List String) (i : Nat) : List String :=
  (fn c args i).c.output.drop c.output.length

/-- The labels a step of the loop allocates: the two labels `compileDotS` asks
`newLabel` for when the token is `.s`, none for every other token (no other
handler calls `newLabel`). -/
def stepLabels (c : Compiler) (tok : String) : List String :=
  if tok = ".s" then
    [ (newLabel c "print_stack").2,
      (newLabel (newLabel c "print_stack").1 "end_stack").2 ]
  else []

/-- The labels allocated by the loop from a configuration on, in allocation
order. -/
def labelsFrom : Nat → Compiler → List String → Nat → List String
  | 0, _, _, _ => []
  | fuel + 1, c, tokens, i =>
    if h : i < tokens.length then
      let r := body c tokens i tokens[i]
      match r.err with
      | some _ => []
      | none => stepLabels c tokens[i] ++ labelsFrom fuel r.c tokens r.i
    else []

/-- The labels allocated during a compilation of `tokens`, in allocation
order. -/
def labels (tokens : List String) : List String :=
  labelsFrom (tokens.length + 1) NewCompiler tokens 0

/-- `L` is what `newLabel` returns at counter value `k` for one of the two
prefixes `compileDotS` passes. -/
def IsLabel (k : Nat) (L : String) : Prop :=
  L = "print_stack" ++ "_" ++ fmtNat k ∨ L = "end_stack" ++ "_" ++ fmtNat k

/-- A handler that allocates no label and appends indented lines only. -/
structure Indented (fn : Compiler → List String → Nat → Ret) : Prop where
  counter : ∀ c args i, (fn c args i).c.labelCounter = c.labelCounter
  out : ∀ c args i, ∃ ls, (fn c args i).c.output = c.output ++ ls ∧
    ∀ l ∈ ls, l.data.head? = some ' '

/-- The names the fixed lines of every artifact define: the entry label of the
header, the four labels of the data segment and the stack-base slot of the bss
segment. -/
def fixedNames : List String :=
  ["main", "fmt_str", "stack_msg", "stack_newline", "empty_stack_msg", "stack_start"]

/-- The names an artifact defines: the fixed names, the labels generated for
`.s` and the declared cells. -/
def definedNames (tokens : List String) : List String :=
  fixedNames ++ labels tokens ++ declarations tokens

/-- The instruction log a compilation of `tokens` has built when its loop
exits, with or without error. -/
def emittedLog (tokens : List String) : List String :=
  match scan (tokens.length + 1) NewCompiler tokens 0 with
  | some (c, _) => c.output
  | none => []

/-! ## The target machine

The emitted arithmetic runs on a 32-bit x86 processor.  The part of it these
lines use is embedded from the instruction set reference: three registers, the
stack, and the instructions `push`, `pop`, `add`, `sub`, `imul`, `xor`, `idiv` in
the operand forms the compiler emits.  Flags are left out: no emitted line
reads them. -/

/-- The registers `eax`, `ebx`, `edx`, each a 32-bit value (a number below
`2^32`), and the stack as the list of its 32-bit cells, the cell at `[esp]`
first. -/
structure Machine where
  eax : Nat
  ebx : Nat
  edx : Nat
  stack : List Nat
deriving DecidableEq, Repr

/-- What running emitted lines ends in: a machine state, the divide-error
exception of `idiv`, or a line (or a pop from a cell) outside this
embedding. -/
inductive Outcome where
  | ok (m : Machine)
  | divideError
  | unmodelled
deriving DecidableEq, Repr

/-- The 32-bit two's-complement encoding of an integer. -/
def word (n : Int) : Nat := (n % 4294967296).toNat

/-- The signed reading of a 32-bit value. -/
def signed32 (w : Nat) : Int :=
  if w < 2147483648 then (w : Int) else (w : Int) - 4294967296

/-- The signed reading of the 64-bit value `edx:eax`. -/
def signed64 (hi lo : Nat) : Int :=
  if hi < 2147483648 then (hi : Int) * 4294967296 + (lo : Int)
  else (hi : Int) * 4294967296 + (lo : Int) - 18446744073709551616

/-- The text after a given prefix, `none` when the text does not start with the
prefix. -/
def dropPrefix : List Char → List Char → Option (List Char)
  | [], s => some s
  | _ :: _, [] => none
  | p :: ps, ch :: s => if p = ch then dropPrefix ps s else none

/-- One emitted line on the machine.  `push` of a decimal literal pushes its
32-bit encoding; `pop r` moves the top cell into `r`; `add [esp], eax` adds
`eax` into the top cell; `sub eax, ebx` and `imul eax, ebx` leave the low 32 bits
of difference and product in `eax`; `xor edx, edx` clears `edx`; `idiv ebx`
divides the signed 64-bit value `edx:eax` by the signed `ebx`, truncating
toward zero, leaves the quotient in `eax` and the remainder in `edx`, and raises
the divide error when `ebx` is 0 or the quotient is outside the signed 32-bit
range. -/
def execLine (l : String) (m : Machine) : Outcome :=
  match dropPrefix "    push ".data l.data with
  | some operand =>
    match strconv_Atoi (String.mk operand) with
    | some n => .ok { m with stack := word n :: m.stack }
    | none =>
      if operand = "eax".data then .ok { m with stack := m.eax :: m.stack }
      else if operand = "ebx".data then .ok { m with stack := m.ebx :: m.stack }
      else if operand = "edx".data then .ok { m with stack := m.edx :: m.stack }
      else .unmodelled
  | none =>
    if l = "    pop eax" then
      match m.stack with
      | [] => .unmodelled
      | v :: rest => .ok { m with eax := v, stack := rest }
    else if l = "    pop ebx" then
      match m.stack with
      | [] => .unmodelled
      | v :: rest => .ok { m with ebx := v, stack := rest }
    else if l = "    add [esp], eax" then
      match m.stack with
      | [] => .unmodelled
      | v :: rest => .ok { m with stack := word ((v : Int) + (m.eax : Int)) :: rest }
    else if l = "    sub eax, ebx" then
      .ok { m with eax := word ((m.eax : Int) - (m.ebx : Int)) }
    else if l = "    imul eax, ebx" then
      .ok { m with eax := word ((m.eax : Int) * (m.ebx : Int)) }
    else if l = "    xor edx, edx" then
      .ok { m with edx := 0 }
    else if l = "    idiv ebx" then
      let dividend := signed64 m.edx m.eax
      let divisor := signed32 m.ebx
      if divisor = 0 then .divideError
      else
        let q := Int.tdiv dividend divisor
        let r := Int.tmod dividend divisor
        if q < -2147483648 ∨ 2147483647 < q then .divideError
        else .ok { m with eax := word q, edx := word r }
    else .unmodelled

/-- The emitted lines in order on the machine, stopping at the first line that
does not end in a machine state. -/
def run : List String → Machine → Outcome
  | [], m => .ok m
  | l :: ls, m =>
    match execLine l m with
    | .ok m2 => run ls m2
    | .divideError => .divideError
    | .unmodelled => .unmodelled

/-! ## Shape of the emitted lines -/

theorem digitChar_ne_newline (k : Nat) (hk : k < 10) : Nat.digitChar k ≠ '\n' := by
  interval_cases k <;> decide

theorem toDigitsCore_no_newline (fuel : Nat) :
    ∀ (n : Nat) (ds : List Char), (∀ ch ∈ ds, ch ≠ '\n') →
      ∀ ch ∈ Nat.toDigitsCore 10 fuel n ds, ch ≠ '\n' := by
  induction fuel with
  | zero => intro n ds hds; simpa [Nat.toDigitsCore] using hds
  | succ f ih =>
    intro n ds hds
    have hcons : ∀ ch ∈ Nat.digitChar (n % 10) :: ds, ch ≠ '\n' := by
      intro ch hch
      rcases List.mem_cons.mp hch with h | h
      · rw [h]; exact digitChar_ne_newline _ (Nat.mod_lt _ (by decide))
      · exact hds ch h
    simp only [Nat.toDigitsCore]
    split_ifs
    · exact hcons
    · exact ih _ _ hcons

/-- The decimal text of a counter holds no newline. -/
theorem fmtNat_no_newline (n : Nat) : '\n' ∉ (fmtNat n).data := by
  have h : (fmtNat n).data = Nat.toDigits 10 n := rfl
  rw [h]
  exact fun hmem => toDigitsCore_no_newline _ _ _ (by simp) _ hmem rfl

/-- The decimal text of an integer holds no newline. -/
theorem fmtInt_no_newline (n : Int) : '\n' ∉ (fmtInt n).data := by
  cases n with
  | ofNat m => exact fmtNat_no_newline m
  | negSucc m =>
    have h : (fmtInt (Int.negSucc m)).data = '-' :: (fmtNat (m + 1)).data := rfl
    rw [h]
    intro hmem
    rcases List.mem_cons.mp hmem with h | h
    · exact absurd h (by decide)
    · exact fmtNat_no_newline _ h

theorem getLast?_cons_snoc (a b : Char) (l : List Char) :
    (a :: (l ++ [b])).getLast? = some b := by
  rw [← List.cons_append, List.getLast?_append]
  simp

theorem emitsOnly_compileAdd : EmitsOnly compileAdd := by
  constructor <;> intro c args i <;> simp [compileAdd, LogLine, NoNewline]

theorem emitsOnly_compileSub : EmitsOnly compileSub := by
  constructor <;> intro c args i <;> simp [compileSub, LogLine, NoNewline]

theorem emitsOnly_compileMul : EmitsOnly compileMul := by
  constructor <;> intro c args i <;> simp [compileMul, LogLine, NoNewline]

theorem emitsOnly_compileDup : EmitsOnly compileDup := by
  constructor <;> intro c args i <;> simp [compileDup, LogLine, NoNewline]

theorem emitsOnly_compileSwap : EmitsOnly compileSwap := by
  constructor <;> intro c args i <;> simp [compileSwap, LogLine, NoNewline]

theorem emitsOnly_compileTuck : EmitsOnly compileTuck := by
  constructor <;> intro c args i <;>
    simp [compileTuck, compileSwap, compileOver, LogLine, NoNewline]
  omega

theorem emitsOnly_compileNeg : EmitsOnly compileNeg := by
  constructor <;> intro c args i <;> simp [compileNeg, LogLine, NoNewline]

theorem emitsOnly_compileDrop : EmitsOnly compileDrop := by
  constructor <;> intro c args i <;> simp [compileDrop, LogLine, NoNewline]

theorem emitsOnly_compileOver : EmitsOnly compileOver := by
  constructor <;> intro c args i <;> simp [compileOver, LogLine, NoNewline]

theorem emitsOnly_compileMod : EmitsOnly compileMod := by
  constructor <;> intro c args i <;> simp [compileMod, LogLine, NoNewline]

theorem emitsOnly_compileNip : EmitsOnly compileNip := by
  constructor <;> intro c args i <;>
    simp [compileNip, compileSwap, compileDrop, LogLine, NoNewline]
  omega

theorem emitsOnly_compileDot : EmitsOnly compileDot := by
  constructor <;> intro c args i <;> simp [compileDot, LogLine, NoNewline]

theorem emitsOnly_compileDotS : EmitsOnly compileDotS := by
  constructor <;> intro c args i <;>
    simp [compileDotS, newLabel, LogLine, NoNewline, String.data_append, getLast?_cons_snoc,
      fmtNat_no_newline]

theorem emitsOnly_compileStore : EmitsOnly compileStore := by
  constructor <;> intro c args i <;> simp [compileStore, LogLine, NoNewline]

theorem emitsOnly_compileFetch : EmitsOnly compileFetch := by
  constructor <;> intro c args i <;> simp [compileFetch, LogLine, NoNewline]

/-- The dispatch table holds `compileVariable` under `variable` and an
emitting handler under each of its other fifteen keys. -/
theorem words_cases (tok : String) (fn : Compiler → List String → Nat → Ret)
    (h : words tok = some fn) :
    (tok = "variable" ∧ fn = compileVariable) ∨ (tok ≠ "variable" ∧ EmitsOnly fn) := by
  unfold words at h
  by_cases h0 : tok = "+"
  · rw [if_pos h0] at h
    exact Or.inr ⟨by rw [h0]; decide, by cases h; exact emitsOnly_compileAdd⟩
  rw [if_neg h0] at h
  by_cases h1 : tok = "-"
  · rw [if_pos h1] at h
    exact Or.inr ⟨by rw [h1]; decide, by cases h; exact emitsOnly_compileSub⟩
  rw [if_neg h1] at h
  by_cases h2 : tok = "*"
  · rw [if_pos h2] at h
    exact Or.inr ⟨by rw [h2]; decide, by cases h; exact emitsOnly_compileMul⟩
  rw [if_neg h2] at h
  by_cases h3 : tok = "dup"
  · rw [if_pos h3] at h
    exact Or.inr ⟨by rw [h3]; decide, by cases h; exact emitsOnly_compileDup⟩
  rw [if_neg h3] at h
  by_cases h4 : tok = "swap"
  · rw [if_pos h4] at h
    exact Or.inr ⟨by rw [h4]; decide, by cases h; exact emitsOnly_compileSwap⟩
  rw [if_neg h4] at h
  by_cases h5 : tok = "tuck"
  · rw [if_pos h5] at h
    exact Or.inr ⟨by rw [h5]; decide, by cases h; exact emitsOnly_compileTuck⟩
  rw [if_neg h5] at h
  by_cases h6 : tok = "neg"
  · rw [if_pos h6] at h
    exact Or.inr ⟨by rw [h6]; decide, by cases h; exact emitsOnly_compileNeg⟩
  rw [if_neg h6] at h
  by_cases h7 : tok = "drop"
  · rw [if_pos h7] at h
    exact Or.inr ⟨by rw [h7]; decide, by cases h; exact emitsOnly_compileDrop⟩
  rw [if_neg h7] at h
  by_cases h8 : tok = "over"
  · rw [if_pos h8] at h
    exact Or.inr ⟨by rw [h8]; decide, by cases h; exact emitsOnly_compileOver⟩
  rw [if_neg h8] at h
  by_cases h9 : tok = "mod"
  · rw [if_pos h9] at h
    exact Or.inr ⟨by rw [h9]; decide, by cases h; exact emitsOnly_compileMod⟩
  rw [if_neg h9] at h
  by_cases h10 : tok = "nip"
  · rw [if_pos h10] at h
    exact Or.inr ⟨by rw [h10]; decide, by cases h; exact emitsOnly_compileNip⟩
  rw [if_neg h10] at h
  by_cases h11 : tok = "."
  · rw [if_pos h11] at h
    exact Or.inr ⟨by rw [h11]; decide, by cases h; exact emitsOnly_compileDot⟩
  rw [if_neg h11] at h
  by_cases h12 : tok = ".s"
  · rw [if_pos h12] at h
    exact Or.inr ⟨by rw [h12]; decide, by cases h; exact emitsOnly_compileDotS⟩
  rw [if_neg h12] at h
  by_cases h13 : tok = "!"
  · rw [if_pos h13] at h
    exact Or.inr ⟨by rw [h13]; decide, by cases h; exact emitsOnly_compileStore⟩
  rw [if_neg h13] at h
  by_cases h14 : tok = "@"
  · rw [if_pos h14] at h
    exact Or.inr ⟨by rw [h14]; decide, by cases h; exact emitsOnly_compileFetch⟩
  rw [if_neg h14] at h
  by_cases hv : tok = "variable"
  · rw [if_pos hv] at h
    exact Or.inl ⟨hv, by cases h; rfl⟩
  rw [if_neg hv] at h
  cases h

/-! ## The loop body, case by case -/

theorem ret_err_match (r : Ret) :
    (match r.err with
      | some e => { r with err := some e }
      | none => r) = r := by
  cases r with
  | mk c i err => cases err <;> rfl

/-- The five ways the loop body can go, in the order the source tests them. -/
theorem body_cases (c : Compiler) (tokens : List String) (i : Nat) (tok : String) :
    (∃ fn, words tok = some fn ∧ tok ≠ "variable" ∧ EmitsOnly fn ∧
        body c tokens i tok = fn c tokens i) ∨
    (tok = "variable" ∧ body c tokens i tok = compileVariable c tokens i) ∨
    (∃ n, words tok = none ∧ strconv_Atoi tok = some n ∧
        body c tokens i tok = { c := compileLiteral c n, i := i + 1, err := none }) ∨
    (words tok = none ∧ strconv_Atoi tok = none ∧ c.hasVar tok = true ∧
        body c tokens i tok = { c := compileVariableRef c tok, i := i + 1, err := none }) ∨
    (words tok = none ∧ strconv_Atoi tok = none ∧ c.hasVar tok = false ∧
        body c tokens i tok =
          { c := c, i := i, err := some ("unknown word or invalid number: " ++ tok) }) := by
  cases hw : words tok with
  | some fn =>
    have hb : body c tokens i tok = fn c tokens i := by
      simp only [body, hw]
      split_ifs <;> exact ret_err_match _
    rcases words_cases tok fn hw with ⟨ht, hf⟩ | ⟨ht, hf⟩
    · exact Or.inr (Or.inl ⟨ht, by rw [hb, hf]⟩)
    · exact Or.inl ⟨fn, rfl, ht, hf, hb⟩
  | none =>
    cases ha : strconv_Atoi tok with
    | some n =>
      exact Or.inr (Or.inr (Or.inl ⟨n, rfl, rfl, by simp only [body, hw, ha]⟩))
    | none =>
      cases hv : c.hasVar tok with
      | true =>
        refine Or.inr (Or.inr (Or.inr (Or.inl ⟨rfl, rfl, rfl, ?_⟩)))
        simp [body, hw, ha, hv]
      | false =>
        refine Or.inr (Or.inr (Or.inr (Or.inr ⟨rfl, rfl, rfl, ?_⟩)))
        simp [body, hw, ha, hv]

/-- The three ways `compileVariable` can go. -/
theorem compileVariable_cases (c : Compiler) (args : List String) (i : Nat) :
    (args.length ≤ i + 1 ∧ compileVariable c args i =
        { c := c, i := i, err := some "missing variable name after 'variable'" }) ∨
    (∃ name, args[i + 1]? = some name ∧ c.hasVar name = true ∧
        compileVariable c args i =
          { c := c, i := i, err := some ("variable '" ++ name ++ "' already exists") }) ∨
    (∃ name, args[i + 1]? = some name ∧ c.hasVar name = false ∧
        compileVariable c args i =
          { c := { c with vars := c.vars ++ [(name, c.bssSegment.length)],
                          bssSegment := c.bssSegment ++ [name ++ ": resd 1"] },
            i := i + 2, err := none }) := by
  by_cases hlen : args.length ≤ i + 1
  · left
    refine ⟨hlen, ?_⟩
    simp [compileVariable, hlen]
  · right
    have hlt : i + 1 < args.length := by omega
    have hname : args.getD (i + 1) "" = args[i + 1] := by
      simp [List.getD, List.getElem?_eq_getElem hlt]
    have hget : args[i + 1]? = some args[i + 1] := List.getElem?_eq_getElem hlt
    have hunf : compileVariable c args i =
        if c.hasVar args[i + 1] then
          { c := c, i := i, err := some ("variable '" ++ args[i + 1] ++ "' already exists") }
        else
          { c := { c with vars := c.vars ++ [(args[i + 1], c.bssSegment.length)],
                          bssSegment := c.bssSegment ++ [args[i + 1] ++ ": resd 1"] },
            i := i + 2, err := none } := by
      unfold compileVariable
      rw [if_neg (by omega), hname]
    cases hv : c.hasVar args[i + 1] with
    | true =>
      left
      refine ⟨_, hget, hv, ?_⟩
      rw [hunf, hv]; rfl
    | false =>
      right
      refine ⟨_, hget, hv, ?_⟩
      rw [hunf, hv]; rfl

/-- A step that returns no error moves the cursor forward. -/
theorem body_advances (c : Compiler) (tokens : List String) (i : Nat) (tok : String)
    (h : (body c tokens i tok).err = none) : i < (body c tokens i tok).i := by
  rcases body_cases c tokens i tok with
    ⟨fn, _, _, hf, hb⟩ | ⟨_, hb⟩ | ⟨n, _, _, hb⟩ | ⟨_, _, _, hb⟩ | ⟨_, _, _, hb⟩
  · rw [hb]; exact hf.adv c tokens i
  · rw [hb] at h ⊢
    rcases compileVariable_cases c tokens i with ⟨_, hc⟩ | ⟨_, _, _, hc⟩ | ⟨_, _, _, hc⟩ <;>
      rw [hc] at h ⊢ <;> simp at h ⊢
  · rw [hb]; simp
  · rw [hb]; simp
  · rw [hb] at h; simp at h

/-- No step touches the data segment. -/
theorem body_dataSegment (c : Compiler) (tokens : List String) (i : Nat) (tok : String) :
    (body c tokens i tok).c.dataSegment = c.dataSegment := by
  rcases body_cases c tokens i tok with
    ⟨fn, _, _, hf, hb⟩ | ⟨_, hb⟩ | ⟨n, _, _, hb⟩ | ⟨_, _, _, hb⟩ | ⟨_, _, _, hb⟩
  · rw [hb]; exact hf.data c tokens i
  · rw [hb]
    rcases compileVariable_cases c tokens i with ⟨_, hc⟩ | ⟨_, _, _, hc⟩ | ⟨_, _, _, hc⟩ <;>
      rw [hc]
  · rw [hb]; rfl
  · rw [hb]; rfl
  · rw [hb]

/-- Every step appends well-shaped lines to the log and does nothing else to
it; the lines hold no newline when the token holds none. -/
theorem body_output (c : Compiler) (tokens : List String) (i : Nat) (tok : String) :
    ∃ ls, (body c tokens i tok).c.output = c.output ++ ls ∧
      ∀ l ∈ ls, LogLine l ∧ (NoNewline tok → NoNewline l) := by
  rcases body_cases c tokens i tok with
    ⟨fn, _, _, hf, hb⟩ | ⟨_, hb⟩ | ⟨n, _, _, hb⟩ | ⟨_, _, _, hb⟩ | ⟨_, _, _, hb⟩
  · rw [hb]
    obtain ⟨ls, h1, h2⟩ := hf.out c tokens i
    exact ⟨ls, h1, fun l hl => ⟨(h2 l hl).1, fun _ => (h2 l hl).2⟩⟩
  · rw [hb]
    refine ⟨[], ?_, by simp⟩
    rcases compileVariable_cases c tokens i with ⟨_, hc⟩ | ⟨_, _, _, hc⟩ | ⟨_, _, _, hc⟩ <;>
      rw [hc] <;> simp
  · rw [hb]
    refine ⟨["    push " ++ fmtInt n], rfl, ?_⟩
    have hn := fmtInt_no_newline n
    simp [LogLine, NoNewline, String.data_append, hn]
  · rw [hb]
    refine ⟨["    push " ++ tok], rfl, ?_⟩
    simp [LogLine, NoNewline, String.data_append]
  · rw [hb]
    exact ⟨[], by simp, by simp⟩

/-! ## The scan loop -/

theorem scan_succ (fuel : Nat) (c : Compiler) (tokens : List String) (i : Nat)
    (h : i < tokens.length) :
    scan (fuel + 1) c tokens i =
      match (body c tokens i tokens[i]).err with
      | some e => some ((body c tokens i tokens[i]).c, some e)
      | none => scan fuel (body c tokens i tokens[i]).c tokens (body c tokens i tokens[i]).i := by
  rw [scan, dif_pos h]

theorem scan_exit (fuel : Nat) (c : Compiler) (tokens : List String) (i : Nat)
    (h : ¬ i < tokens.length) : scan (fuel + 1) c tokens i = some (c, none) := by
  rw [scan, dif_neg h]

theorem scan_error (fuel : Nat) (c : Compiler) (tokens : List String) (i : Nat)
    (h : i < tokens.length) (e : String) (he : (body c tokens i tokens[i]).err = some e) :
    scan (fuel + 1) c tokens i = some ((body c tokens i tokens[i]).c, some e) := by
  rw [scan_succ fuel c tokens i h, he]

theorem scan_continue (fuel : Nat) (c : Compiler) (tokens : List String) (i : Nat)
    (h : i < tokens.length) (he : (body c tokens i tokens[i]).err = none) :
    scan (fuel + 1) c tokens i =
      scan fuel (body c tokens i tokens[i]).c tokens (body c tokens i tokens[i]).i := by
  rw [scan_succ fuel c tokens i h, he]

/-- More fuel does not change a result. -/
theorem scan_fuel_mono (tokens : List String) :
    ∀ (fuel : Nat) (c : Compiler) (i : Nat) (r : Compiler × Option String),
      scan fuel c tokens i = some r → ∀ k, scan (fuel + k) c tokens i = some r := by
  intro fuel
  induction fuel with
  | zero => intro c i r h; simp [scan] at h
  | succ f ih =>
    intro c i r h k
    rw [Nat.add_right_comm]
    by_cases hi : i < tokens.length
    · cases he : (body c tokens i tokens[i]).err with
      | some e =>
        rw [scan_error f c tokens i hi e he] at h
        rw [scan_error (f + k) c tokens i hi e he]
        exact h
      | none =>
        rw [scan_continue f c tokens i hi he] at h
        rw [scan_continue (f + k) c tokens i hi he]
        exact ih _ _ r h k
    · rw [scan_exit f c tokens i hi] at h
      rw [scan_exit (f + k) c tokens i hi]
      exact h

/-- Two runs that both finish agree, whatever their fuel. -/
theorem scan_fuel_irrelevant (tokens : List String) (f1 f2 : Nat) (c : Compiler) (i : Nat)
    (r1 r2 : Compiler × Option String)
    (h1 : scan f1 c tokens i = some r1) (h2 : scan f2 c tokens i = some r2) : r1 = r2 := by
  have e1 := scan_fuel_mono tokens f1 c i r1 h1 f2
  have e2 := scan_fuel_mono tokens f2 c i r2 h2 f1
  rw [Nat.add_comm] at e2
  rw [e1] at e2
  exact Option.some.inj e2

/-- The loop terminates: as many units of fuel as there are tokens left, plus
one, always give a result. -/
theorem scan_terminates (tokens : List String) :
    ∀ (fuel : Nat) (c : Compiler) (i : Nat), tokens.length ≤ fuel + i →
      ∃ r, scan (fuel + 1) c tokens i = some r := by
  intro fuel
  induction fuel with
  | zero =>
    intro c i h
    exact ⟨(c, none), scan_exit 0 c tokens i (by omega)⟩
  | succ f ih =>
    intro c i h
    by_cases hi : i < tokens.length
    · cases he : (body c tokens i tokens[i]).err with
      | some e => exact ⟨_, scan_error (f + 1) c tokens i hi e he⟩
      | none =>
        rw [scan_continue (f + 1) c tokens i hi he]
        have hadv := body_advances c tokens i tokens[i] he
        exact ih _ _ (by omega)
    · exact ⟨(c, none), scan_exit (f + 1) c tokens i hi⟩

/-- The scan of `compileTokens` never runs out of fuel. -/
theorem compileTokens_terminates (tokens : List String) :
    ∃ res, compileTokens tokens = some res := by
  obtain ⟨r, hr⟩ := scan_terminates tokens tokens.length NewCompiler 0 (by omega)
  rcases r with ⟨c, _ | e⟩
  · exact ⟨.ok (writeAsm c), by simp [compileTokens, hr]⟩
  · exact ⟨.error e, by simp [compileTokens, hr]⟩

/-- `Compile` returns on every input. -/
theorem Compile_terminates (data : String) : ∃ res, Compile data = some res :=
  compileTokens_terminates _

/-- A property of the compiler kept by every step holds when the loop exits,
with or without error. -/
theorem scan_invariant (P : Compiler → Prop) (tokens : List String)
    (hstep : ∀ c i (h : i < tokens.length), P c → P (body c tokens i tokens[i]).c) :
    ∀ (fuel : Nat) (c : Compiler) (i : Nat) (r : Compiler × Option String),
      P c → scan fuel c tokens i = some r → P r.1 := by
  intro fuel
  induction fuel with
  | zero => intro c i r _ h; simp [scan] at h
  | succ f ih =>
    intro c i r hP h
    by_cases hi : i < tokens.length
    · cases he : (body c tokens i tokens[i]).err with
      | some e =>
        rw [scan_error f c tokens i hi e he] at h
        cases h
        exact hstep c i hi hP
      | none =>
        rw [scan_continue f c tokens i hi he] at h
        exact ih _ _ r (hstep c i hi hP) h
    · rw [scan_exit f c tokens i hi] at h
      cases h
      exact hP

/-- The result of the loop from a configuration it passes through is the
result of the whole loop. -/
theorem scan_of_reaches (tokens : List String) (c : Compiler) (i : Nat)
    (hr : Reaches tokens c i) :
    ∀ (fuel : Nat) (r : Compiler × Option String), scan fuel c tokens i = some r →
      scan (tokens.length + 1) NewCompiler tokens 0 = some r := by
  induction hr with
  | start =>
    intro fuel r h
    obtain ⟨r2, h2⟩ := scan_terminates tokens tokens.length NewCompiler 0 (by omega)
    rw [h2, scan_fuel_irrelevant tokens _ _ _ _ _ _ h2 h]
  | step c i hi _ he ih =>
    intro fuel r h
    apply ih (fuel + 1) r
    rw [scan_continue fuel c tokens i hi he]
    exact h

/-- An error the loop body returns in a configuration the loop passes through
is the result of the whole compilation. -/
theorem compileTokens_error_of_reaches (tokens : List String) (c : Compiler) (i : Nat)
    (hr : Reaches tokens c i) (hi : i < tokens.length) (e : String)
    (he : (body c tokens i tokens[i]).err = some e) :
    compileTokens tokens = some (.error e) := by
  have h := scan_of_reaches tokens c i hr 1 _ (scan_error 0 c tokens i hi e he)
  simp [compileTokens, h]

/-! ## Symbol table and bss segment -/

theorem words_variable : words "variable" = some compileVariable := rfl

theorem words_variable_ne_none : words "variable" ≠ none := by
  rw [words_variable]; exact fun h => Option.noConfusion h

/-- A step either leaves symbol table and bss segment alone, or it is a
successful `variable` declaration, which adds the name to both. -/
theorem body_decl_cases (c : Compiler) (tokens : List String) (i : Nat) (tok : String) :
    ((body c tokens i tok).c.vars = c.vars ∧
      (body c tokens i tok).c.bssSegment = c.bssSegment ∧
      (tok = "variable" → (body c tokens i tok).err ≠ none)) ∨
    (∃ name, tok = "variable" ∧ tokens[i + 1]? = some name ∧ c.hasVar name = false ∧
      (body c tokens i tok).err = none ∧
      (body c tokens i tok).c.vars = c.vars ++ [(name, c.bssSegment.length)] ∧
      (body c tokens i tok).c.bssSegment = c.bssSegment ++ [name ++ ": resd 1"]) := by
  rcases body_cases c tokens i tok with
    ⟨fn, _, hne, hf, hb⟩ | ⟨ht, hb⟩ | ⟨n, hw, _, hb⟩ | ⟨hw, _, _, hb⟩ | ⟨hw, _, _, hb⟩
  · left; rw [hb]
    exact ⟨hf.vars c tokens i, hf.bss c tokens i, fun h => absurd h hne⟩
  · rw [hb]
    rcases compileVariable_cases c tokens i with
      ⟨_, hc⟩ | ⟨_, _, _, hc⟩ | ⟨name, hn, hv, hc⟩
    · left; rw [hc]; simp
    · left; rw [hc]; simp
    · right; rw [hc]; exact ⟨name, ht, hn, hv, rfl, rfl, rfl⟩
  · left; rw [hb]
    exact ⟨rfl, rfl, fun h => by rw [h] at hw; exact absurd hw words_variable_ne_none⟩
  · left; rw [hb]
    exact ⟨rfl, rfl, fun h => by rw [h] at hw; exact absurd hw words_variable_ne_none⟩
  · left; rw [hb]
    exact ⟨rfl, rfl, fun _ => by simp⟩

theorem hasVar_append (c : Compiler) (n name : String) (v : Nat)
    (h : (c.vars.lookup n).isSome = true) :
    ((c.vars ++ [(name, v)]).lookup n).isSome = true := by
  rw [List.lookup_append]
  cases hl : c.vars.lookup n with
  | none => rw [hl] at h; simp at h
  | some x => simp

theorem hasVar_append_self (vars : List (String × Nat)) (name : String) (v : Nat) :
    ((vars ++ [(name, v)]).lookup name).isSome = true := by
  rw [List.lookup_append]
  cases vars.lookup name <;> simp

/-- No step removes a name from the symbol table. -/
theorem body_hasVar_mono (c : Compiler) (tokens : List String) (i : Nat) (tok n : String)
    (h : c.hasVar n = true) : (body c tokens i tok).c.hasVar n = true := by
  rcases body_decl_cases c tokens i tok with ⟨hv, _, _⟩ | ⟨name, _, _, _, _, hv, _⟩
  · unfold Compiler.hasVar at h ⊢; rw [hv]; exact h
  · unfold Compiler.hasVar at h ⊢; rw [hv]; exact hasVar_append c n name _ h

/-- A declared name is in the symbol table. -/
theorem Declared.hasVar {n : String} {c : Compiler} (h : Declared n c) :
    c.hasVar n = true := by
  induction h with
  | decl c args i hn he =>
    rcases compileVariable_cases c args i with
      ⟨_, hc⟩ | ⟨_, _, _, hc⟩ | ⟨name, hname, _, hc⟩
    · rw [hc] at he; simp at he
    · rw [hc] at he; simp at he
    · rw [hc]
      rw [hn] at hname
      cases hname
      exact hasVar_append_self _ _ _
  | later c tokens i tok _ ih => exact body_hasVar_mono c tokens i tok n ih

theorem getElem_of_getElem? {tokens : List String} {i : Nat} {t : String}
    (h : tokens[i]? = some t) : ∃ hi : i < tokens.length, tokens[i] = t := by
  obtain ⟨hi, ht⟩ := List.getElem?_eq_some_iff.mp h
  exact ⟨hi, ht⟩

theorem body_variable (c : Compiler) (tokens : List String) (i : Nat) :
    body c tokens i "variable" = compileVariable c tokens i := by
  rcases body_cases c tokens i "variable" with
    ⟨fn, _, hne, _, _⟩ | ⟨_, hb⟩ | ⟨n, hw, _, _⟩ | ⟨hw, _, _, _⟩ | ⟨hw, _, _, _⟩
  · exact absurd rfl hne
  · exact hb
  · exact absurd hw words_variable_ne_none
  · exact absurd hw words_variable_ne_none
  · exact absurd hw words_variable_ne_none

/-- A source that normalizes to the empty text is split into the single empty
token, which the loop rejects. -/
theorem Compile_of_preprocess_empty (data : String) (h : preprocess data = "") :
    Compile data = some (.error "unknown word or invalid number: ") := by
  unfold Compile
  rw [h]
  rfl

/-! ## The claims -/

/-- C1, the code at the failing inputs: the loop accepts the empty token list
and `writeAsm` then gives the artifact of the empty program, but the empty
source, and a source of blanks and one line comment, normalize to the empty
text, `strings.Split` makes the single empty token of it, and `Compile` returns
the unknown-word error for that empty token. -/
theorem empty_program_is_rejected :
    compileTokens [] = some (.ok (writeAsm NewCompiler)) ∧
    preprocess "" = "" ∧
    preprocess " \t\\ only a comment\n \n" = "" ∧
    strings_Split "" ' ' = [""] ∧
    Compile "" = some (.error "unknown word or invalid number: ") ∧
    Compile " \t\\ only a comment\n \n" =
      some (.error "unknown word or invalid number: ") :=
  ⟨rfl, rfl, rfl, rfl, rfl, rfl⟩

/-- C2, the code at the failing input: in `1 2 tuck foo` the token `foo` is
neither a vocabulary word nor an integer nor a declared cell, yet the program
compiles, to the very artifact of `1 2 tuck`: `tuck` moves the cursor past
`foo`. -/
theorem unknown_token_after_tuck_is_skipped :
    strings_Split (preprocess "1 2 tuck foo") ' ' = ["1", "2", "tuck", "foo"] ∧
    (words "foo").isNone = true ∧ strconv_Atoi "foo" = none ∧
    Compile "1 2 tuck foo" = Compile "1 2 tuck" ∧
    Compile "1 2 tuck foo" =
      some (.ok (writeAsm { NewCompiler with
        output :=
          [ "    push 1", "    push 2",
            "    pop eax", "    pop ebx", "    push eax", "    push ebx",
            "    mov eax, [esp+4]", "    push eax" ] })) :=
  ⟨rfl, rfl, rfl, rfl, rfl⟩

/-- C3, the code of the handlers: from every state and cursor, both `tuck` and
`nip` return no error and leave the cursor at `i + 2`, one token further than
the width 1 of the dispatch table, because each of the two primitive handlers
they call increments the shared cursor.  The thirteen other one-token words
leave the cursor at `i + 1`, and `variable` leaves it at `i + 2` when it
returns no error and at `i` when it returns one. -/
theorem composite_words_advance_by_two (c : Compiler) (args : List String) (i : Nat) :
    (compileTuck c args i).err = none ∧ (compileTuck c args i).i = i + 2 ∧
    (compileNip c args i).err = none ∧ (compileNip c args i).i = i + 2 ∧
    body c args i "tuck" = compileTuck c args i ∧
    body c args i "nip" = compileNip c args i ∧
    (compileAdd c args i).i = i + 1 ∧ (compileSub c args i).i = i + 1 ∧
    (compileMul c args i).i = i + 1 ∧ (compileMod c args i).i = i + 1 ∧
    (compileNeg c args i).i = i + 1 ∧ (compileDup c args i).i = i + 1 ∧
    (compileDrop c args i).i = i + 1 ∧ (compileSwap c args i).i = i + 1 ∧
    (compileOver c args i).i = i + 1 ∧ (compileDot c args i).i = i + 1 ∧
    (compileDotS c args i).i = i + 1 ∧ (compileStore c args i).i = i + 1 ∧
    (compileFetch c args i).i = i + 1 ∧
    (compileVariable c args i).i =
      (if (compileVariable c args i).err.isNone then i + 2 else i) := by
  refine ⟨rfl, rfl, rfl, rfl, rfl, rfl, rfl, rfl, rfl, rfl, rfl, rfl, rfl, rfl, rfl, rfl,
    rfl, rfl, rfl, ?_⟩
  rcases compileVariable_cases c args i with ⟨_, hc⟩ | ⟨_, _, _, hc⟩ | ⟨_, _, _, hc⟩ <;>
    rw [hc] <;> rfl

/-- The redeclaration step: in a state where `n` is declared, `compileVariable`
on `variable n` returns the duplicate error and leaves the compiler as it
was, and the loop stops there. -/
theorem redeclare_step (n : String) (c : Compiler) (tokens : List String) (i : Nat)
    (hd : Declared n c) (ht : tokens[i]? = some "variable") (hn : tokens[i + 1]? = some n) :
    compileVariable c tokens i =
      { c := c, i := i, err := some ("variable '" ++ n ++ "' already exists") } ∧
    (∀ fuel, scan (fuel + 1) c tokens i =
      some (c, some ("variable '" ++ n ++ "' already exists"))) ∧
    (Reaches tokens c i →
      compileTokens tokens = some (.error ("variable '" ++ n ++ "' already exists"))) := by
  have hcv : compileVariable c tokens i =
      { c := c, i := i, err := some ("variable '" ++ n ++ "' already exists") } := by
    rcases compileVariable_cases c tokens i with
      ⟨hlen, _⟩ | ⟨name, hname, _, hc⟩ | ⟨name, hname, hv, _⟩
    · obtain ⟨hi, _⟩ := getElem_of_getElem? hn
      omega
    · rw [hn] at hname; cases hname; exact hc
    · rw [hn] at hname; cases hname
      rw [hd.hasVar] at hv; cases hv
  obtain ⟨hi, htok⟩ := getElem_of_getElem? ht
  have hbody : body c tokens i tokens[i] =
      { c := c, i := i, err := some ("variable '" ++ n ++ "' already exists") } := by
    rw [htok, body_variable, hcv]
  refine ⟨hcv, ?_, ?_⟩
  · intro fuel
    rw [scan_error fuel c tokens i hi _ (by rw [hbody]), hbody]
  · intro hr
    exact compileTokens_error_of_reaches tokens c i hr hi _ (by rw [hbody])

/-- The first declaration of a program `variable n ...` succeeds. -/
theorem first_declaration (n : String) (rest : List String) :
    compileVariable NewCompiler ("variable" :: n :: rest) 0 =
      { c := { NewCompiler with vars := [(n, 2)],
                                bssSegment := NewCompiler.bssSegment ++ [n ++ ": resd 1"] },
        i := 2, err := none } := by
  rcases compileVariable_cases NewCompiler ("variable" :: n :: rest) 0 with
    ⟨hlen, _⟩ | ⟨name, _, hv, _⟩ | ⟨name, hname, _, hc⟩
  · simp at hlen
  · simp [Compiler.hasVar, NewCompiler] at hv
  · simp at hname
    subst hname
    rw [hc]
    rfl

/-- C4: redeclaration is rejected.  In every compiler state in which a
declaration `variable n` has been processed, processing `variable n` again
returns the error `variable 'n' already exists` and leaves the compiler,
hence the bss segment, unchanged; the loop stops with that error, and when
this happens in a configuration the compilation passes through, the
compilation fails with that error and writes nothing.  In particular the
program `variable n variable n` fails this way for every token `n`. -/
theorem redeclaration_is_rejected (n : String) (c : Compiler) (tokens : List String)
    (i : Nat) (hd : Declared n c) (ht : tokens[i]? = some "variable")
    (hn : tokens[i + 1]? = some n) :
    (compileVariable c tokens i).err = some ("variable '" ++ n ++ "' already exists") ∧
    (compileVariable c tokens i).c = c ∧
    (compileVariable c tokens i).c.bssSegment = c.bssSegment ∧
    (∀ fuel, scan (fuel + 1) c tokens i =
      some (c, some ("variable '" ++ n ++ "' already exists"))) ∧
    (Reaches tokens c i →
      compileTokens tokens = some (.error ("variable '" ++ n ++ "' already exists"))) ∧
    compileTokens ["variable", n, "variable", n] =
      some (.error ("variable '" ++ n ++ "' already exists")) := by
  obtain ⟨hcv, hscan, hall⟩ := redeclare_step n c tokens i hd ht hn
  refine ⟨by rw [hcv], by rw [hcv], by rw [hcv], hscan, hall, ?_⟩
  have h0 := first_declaration n ["variable", n]
  have hb0 : body NewCompiler ["variable", n, "variable", n] 0
      (["variable", n, "variable", n][0]) =
      compileVariable NewCompiler ["variable", n, "variable", n] 0 :=
    body_variable _ _ _
  have hd1 : Declared n (compileVariable NewCompiler ["variable", n, "variable", n] 0).c :=
    Declared.decl NewCompiler ["variable", n, "variable", n] 0 rfl (by rw [h0])
  have hr1 := Reaches.step NewCompiler 0 (by simp) (Reaches.start)
    (by rw [hb0, h0] : (body NewCompiler ["variable", n, "variable", n] 0
      (["variable", n, "variable", n][0])).err = none)
  rw [hb0] at hr1
  rw [h0] at hr1 hd1
  exact (redeclare_step n _ ["variable", n, "variable", n] 2 hd1 rfl rfl).2.2 hr1

/-- C4 at the program `variable x variable x`. -/
theorem redeclaration_is_rejected_witness :
    Declared "x" (compileVariable NewCompiler ["variable", "x", "variable", "x"] 0).c ∧
    ["variable", "x", "variable", "x"][2]? = some "variable" ∧
    ["variable", "x", "variable", "x"][2 + 1]? = some "x" ∧
    (compileVariable (compileVariable NewCompiler ["variable", "x", "variable", "x"] 0).c
      ["variable", "x", "variable", "x"] 2).err = some "variable 'x' already exists" ∧
    compileTokens ["variable", "x", "variable", "x"] =
      some (.error "variable 'x' already exists") ∧
    Compile "variable x variable x" = some (.error "variable 'x' already exists") :=
  have hd : Declared "x"
      (compileVariable NewCompiler ["variable", "x", "variable", "x"] 0).c :=
    Declared.decl NewCompiler ["variable", "x", "variable", "x"] 0 rfl rfl
  ⟨hd, rfl, rfl,
    (redeclaration_is_rejected "x" _ ["variable", "x", "variable", "x"] 2 hd rfl rfl).1,
    (redeclaration_is_rejected "x" _ ["variable", "x", "variable", "x"] 2 hd rfl rfl).2.2.2.2.2,
    rfl⟩

/-- C5 as stated fails: a program whose last token is `variable` need not fail
with the missing-name error.  `foo variable` ends in `variable` and fails with
the unknown-word error of the earlier token `foo`; `variable variable` ends in
`variable` and compiles, its last token being taken as the name of the cell the
first one declares. -/
theorem trailing_variable_counterexample :
    (strings_Split (preprocess "foo variable") ' ').getLast? = some "variable" ∧
    Compile "foo variable" = some (.error "unknown word or invalid number: foo") ∧
    Compile "foo variable" ≠ some (.error "missing variable name after 'variable'") ∧
    (strings_Split (preprocess "variable variable") ' ').getLast? = some "variable" ∧
    Compile "variable variable" =
      some (.ok (writeAsm { NewCompiler with
        vars := [("variable", 2)],
        bssSegment := ["section .bss", "stack_start resd 1", "variable: resd 1"] })) ∧
    Compile "variable variable" ≠ some (.error "missing variable name after 'variable'") := by
  have h1 : Compile "foo variable" =
      some (.error "unknown word or invalid number: foo") := rfl
  have h2 : Compile "variable variable" =
      some (.ok (writeAsm { NewCompiler with
        vars := [("variable", 2)],
        bssSegment := ["section .bss", "stack_start resd 1", "variable: resd 1"] })) := rfl
  refine ⟨rfl, h1, ?_, rfl, h2, ?_⟩
  · rw [h1]
    intro h
    have h3 := Except.error.inj (Option.some.inj h)
    exact absurd h3 (by decide)
  · rw [h2]
    intro h
    exact Except.noConfusion (Option.some.inj h)

/-- C5, amended: whenever the loop of a compilation arrives, without an earlier
error, at a `variable` token that is the last token, `compileVariable` returns
the missing-name error, leaves the compiler unchanged, and the compilation
fails with that error and writes nothing. -/
theorem trailing_variable_reports_missing_name (tokens : List String) (c : Compiler)
    (i : Nat) (hr : Reaches tokens c i) (ht : tokens[i]? = some "variable")
    (hlast : i + 1 = tokens.length) :
    compileVariable c tokens i =
      { c := c, i := i, err := some "missing variable name after 'variable'" } ∧
    compileTokens tokens = some (.error "missing variable name after 'variable'") := by
  have hcv : compileVariable c tokens i =
      { c := c, i := i, err := some "missing variable name after 'variable'" } := by
    rcases compileVariable_cases c tokens i with
      ⟨_, hc⟩ | ⟨name, hname, _, _⟩ | ⟨name, hname, _, _⟩
    · exact hc
    · obtain ⟨hi, _⟩ := getElem_of_getElem? hname
      omega
    · obtain ⟨hi, _⟩ := getElem_of_getElem? hname
      omega
  obtain ⟨hi, htok⟩ := getElem_of_getElem? ht
  refine ⟨hcv, compileTokens_error_of_reaches tokens c i hr hi _ ?_⟩
  rw [htok, body_variable, hcv]

/-- C5, amended, at the one-token program `variable`. -/
theorem trailing_variable_reports_missing_name_witness :
    Reaches ["variable"] NewCompiler 0 ∧ ["variable"][0]? = some "variable" ∧
    0 + 1 = ["variable"].length ∧
    compileTokens ["variable"] = some (.error "missing variable name after 'variable'") ∧
    Compile "variable" = some (.error "missing variable name after 'variable'") :=
  ⟨Reaches.start, rfl, rfl,
    (trailing_variable_reports_missing_name ["variable"] NewCompiler 0
      Reaches.start rfl rfl).2,
    rfl⟩

/-- C6: token classification is vocabulary word, then integer literal, then
declared cell.  A token `t` outside the vocabulary that `strconv.Atoi` parses
as `n` makes the loop body append the single line `    push n`, `n` printed by
the decimal verb, and move the cursor by 1, in every compiler state, so also
when `t` is a declared cell; the loop then goes on at the next token.  A token
of the vocabulary is handled by its table entry in every compiler state.
After `variable 007` the token `007` emits `    push 7`, and after
`variable dup` the token `dup` emits the lines of `dup`. -/
theorem literal_precedes_cell (c : Compiler) (tokens : List String) (i : Nat)
    (t : String) (n : Int) (hw : words t = none) (ha : strconv_Atoi t = some n) :
    body c tokens i t =
      { c := { c with output := c.output ++ ["    push " ++ fmtInt n] },
        i := i + 1, err := none } ∧
    (∀ fuel, tokens[i]? = some t →
      scan (fuel + 1) c tokens i =
        scan fuel { c with output := c.output ++ ["    push " ++ fmtInt n] } tokens (i + 1)) ∧
    (∀ w fn, words w = some fn → body c tokens i w = fn c tokens i) ∧
    Compile "variable 007 007" =
      some (.ok (writeAsm { NewCompiler with
        vars := [("007", 2)],
        output := ["    push 7"],
        bssSegment := ["section .bss", "stack_start resd 1", "007: resd 1"] })) ∧
    Compile "variable dup 1 dup" =
      some (.ok (writeAsm { NewCompiler with
        vars := [("dup", 2)],
        output := ["    push 1", "    mov eax, [esp]", "    push eax"],
        bssSegment := ["section .bss", "stack_start resd 1", "dup: resd 1"] })) := by
  have hb : body c tokens i t =
      { c := { c with output := c.output ++ ["    push " ++ fmtInt n] },
        i := i + 1, err := none } := by
    simp only [body, hw, ha]
    rfl
  refine ⟨hb, ?_, ?_, rfl, rfl⟩
  · intro fuel ht
    obtain ⟨hi, htok⟩ := getElem_of_getElem? ht
    rw [scan_continue fuel c tokens i hi (by rw [htok, hb]), htok, hb]
  · intro w fn hfn
    simp only [body, hfn]
    split_ifs <;> exact ret_err_match _

/-- C6 at the token `007` after `variable 007`: the declared cell `007` is in
the symbol table, and the token still emits the literal push. -/
theorem literal_precedes_cell_witness :
    words "007" = none ∧ strconv_Atoi "007" = some 7 ∧
    (compileVariable NewCompiler ["variable", "007", "007"] 0).c.hasVar "007" = true ∧
    (body (compileVariable NewCompiler ["variable", "007", "007"] 0).c
        ["variable", "007", "007"] 2 "007").c.output = ["    push 7"] ∧
    (body (compileVariable NewCompiler ["variable", "007", "007"] 0).c
        ["variable", "007", "007"] 2 "007").i = 3 :=
  ⟨rfl, rfl, rfl,
    by rw [(literal_precedes_cell (compileVariable NewCompiler ["variable", "007", "007"] 0).c
        ["variable", "007", "007"] 2 "007" 7 rfl rfl).1]; rfl,
    by rw [(literal_precedes_cell (compileVariable NewCompiler ["variable", "007", "007"] 0).c
        ["variable", "007", "007"] 2 "007" 7 rfl rfl).1]⟩

/-! ## Normalization -/

theorem isSpace_blank : isSpace ' ' = true := by decide

/-- The leading word and the fields `splitWords` returns hold no blank
character, the fields are not empty, and all their characters come from the
text. -/
theorem splitWords_spec (s : List Char) :
    (∀ ch ∈ (splitWords s).1, isSpace ch = false ∧ ch ∈ s) ∧
    (∀ w ∈ (splitWords s).2, w ≠ [] ∧ ∀ ch ∈ w, isSpace ch = false ∧ ch ∈ s) := by
  induction s with
  | nil => simp [splitWords]
  | cons a rest ih =>
    obtain ⟨ih1, ih2⟩ := ih
    by_cases ha : isSpace a = true
    · have hs : splitWords (a :: rest) =
          ([], if (splitWords rest).1 = [] then (splitWords rest).2
                else (splitWords rest).1 :: (splitWords rest).2) := by
        simp [splitWords, ha]
      rw [hs]
      refine ⟨by simp, ?_⟩
      intro w hw
      by_cases he : (splitWords rest).1 = []
      · rw [if_pos he] at hw
        obtain ⟨h1, h2⟩ := ih2 w hw
        exact ⟨h1, fun ch hch => ⟨(h2 ch hch).1, List.mem_cons_of_mem _ (h2 ch hch).2⟩⟩
      · rw [if_neg he] at hw
        rcases List.mem_cons.mp hw with hw | hw
        · subst hw
          exact ⟨he, fun ch hch => ⟨(ih1 ch hch).1, List.mem_cons_of_mem _ (ih1 ch hch).2⟩⟩
        · obtain ⟨h1, h2⟩ := ih2 w hw
          exact ⟨h1, fun ch hch => ⟨(h2 ch hch).1, List.mem_cons_of_mem _ (h2 ch hch).2⟩⟩
    · have ha2 : isSpace a = false := by simpa using ha
      have hs : splitWords (a :: rest) = (a :: (splitWords rest).1, (splitWords rest).2) := by
        simp [splitWords, ha2]
      rw [hs]
      constructor
      · intro ch hch
        rcases List.mem_cons.mp hch with hch | hch
        · subst hch; exact ⟨ha2, List.mem_cons_self _ _⟩
        · exact ⟨(ih1 ch hch).1, List.mem_cons_of_mem _ (ih1 ch hch).2⟩
      · intro w hw
        obtain ⟨h1, h2⟩ := ih2 w hw
        exact ⟨h1, fun ch hch => ⟨(h2 ch hch).1, List.mem_cons_of_mem _ (h2 ch hch).2⟩⟩

/-- Every field is a non-empty run of non-blank characters of the text. -/
theorem fieldsChars_spec (s : List Char) :
    ∀ w ∈ fieldsChars s, w ≠ [] ∧ ∀ ch ∈ w, isSpace ch = false ∧ ch ∈ s := by
  intro w hw
  unfold fieldsChars at hw
  by_cases he : (splitWords s).1 = []
  · simp only [he, if_true] at hw
    exact (splitWords_spec s).2 w hw
  · simp only [he, if_false] at hw
    rcases List.mem_cons.mp hw with hw | hw
    · subst hw
      exact ⟨he, (splitWords_spec s).1⟩
    · exact (splitWords_spec s).2 w hw

/-- A blank-free word in front of a text extends the leading word of the
text. -/
theorem splitWords_append (w rest : List Char) (hw : ∀ ch ∈ w, isSpace ch = false) :
    splitWords (w ++ rest) = (w ++ (splitWords rest).1, (splitWords rest).2) := by
  induction w with
  | nil => simp
  | cons a w ih =>
    have ha : isSpace a = false := hw a (List.mem_cons_self _ _)
    have ih2 := ih (fun ch hch => hw ch (List.mem_cons_of_mem _ hch))
    simp [splitWords, ha, ih2]

/-- The words joined by single blanks are split back into the same words. -/
theorem splitWords_joinChars (w : List Char) (ws : List (List Char))
    (hw : ∀ ch ∈ w, isSpace ch = false)
    (hws : ∀ x ∈ ws, x ≠ [] ∧ ∀ ch ∈ x, isSpace ch = false) :
    splitWords (joinChars [' '] (w :: ws)) = (w, ws) := by
  induction ws generalizing w with
  | nil =>
    have h := splitWords_append w [] hw
    simpa [joinChars, splitWords] using h
  | cons w2 ws ih =>
    have h2 := hws w2 (List.mem_cons_self _ _)
    have ih2 := ih w2 h2.2 (fun x hx => hws x (List.mem_cons_of_mem _ hx))
    have hj : joinChars [' '] (w :: w2 :: ws) = w ++ (' ' :: joinChars [' '] (w2 :: ws)) := by
      simp [joinChars]
    rw [hj, splitWords_append w _ hw]
    simp [splitWords, isSpace_blank, ih2, h2.1]

theorem fieldsChars_joinChars (ws : List (List Char))
    (hws : ∀ x ∈ ws, x ≠ [] ∧ ∀ ch ∈ x, isSpace ch = false) :
    fieldsChars (joinChars [' '] ws) = ws := by
  cases ws with
  | nil => simp [joinChars, fieldsChars, splitWords]
  | cons w ws =>
    have h1 := hws w (List.mem_cons_self _ _)
    unfold fieldsChars
    rw [splitWords_joinChars w ws h1.2 (fun x hx => hws x (List.mem_cons_of_mem _ hx))]
    simp [h1.1]

/-- A character of a joined text is a character of the separator or of one of
the joined pieces. -/
theorem mem_joinChars (sep : List Char) (ws : List (List Char)) (ch : Char)
    (h : ch ∈ joinChars sep ws) : ch ∈ sep ∨ ∃ w ∈ ws, ch ∈ w := by
  induction ws with
  | nil => simp [joinChars] at h
  | cons w ws ih =>
    cases ws with
    | nil =>
      simp only [joinChars] at h
      exact Or.inr ⟨w, List.mem_cons_self _ _, h⟩
    | cons w2 ws =>
      simp only [joinChars, List.mem_append] at h
      rcases h with (h | h) | h
      · exact Or.inr ⟨w, List.mem_cons_self _ _, h⟩
      · exact Or.inl h
      · rcases ih h with h | ⟨x, hx, hch⟩
        · exact Or.inl h
        · exact Or.inr ⟨x, List.mem_cons_of_mem _ hx, hch⟩

/-- What comment stripping leaves holds no backslash and only characters of the
text. -/
theorem mem_stripFrom (s : List Char) :
    ∀ (b : Bool) (ch : Char), ch ∈ stripFrom b s → ch ≠ '\\' ∧ ch ∈ s := by
  induction s with
  | nil => intro b ch h; cases b <;> simp [stripFrom] at h
  | cons a rest ih =>
    intro b ch h
    cases b with
    | true =>
      by_cases ha : a = '\n'
      · simp only [stripFrom, ha, if_true] at h
        rcases List.mem_cons.mp h with h | h
        · subst h; subst ha
          exact ⟨by decide, List.mem_cons_self _ _⟩
        · exact ⟨(ih false ch h).1, List.mem_cons_of_mem _ (ih false ch h).2⟩
      · simp only [stripFrom, ha, if_false] at h
        exact ⟨(ih true ch h).1, List.mem_cons_of_mem _ (ih true ch h).2⟩
    | false =>
      by_cases ha : a = '\\'
      · simp only [stripFrom, ha, if_true] at h
        exact ⟨(ih true ch h).1, List.mem_cons_of_mem _ (ih true ch h).2⟩
      · simp only [stripFrom, ha, if_false] at h
        rcases List.mem_cons.mp h with h | h
        · subst h
          exact ⟨ha, List.mem_cons_self _ _⟩
        · exact ⟨(ih false ch h).1, List.mem_cons_of_mem _ (ih false ch h).2⟩

/-- A text without backslash has no comment to strip. -/
theorem stripFrom_of_no_backslash (s : List Char) (h : ∀ ch ∈ s, ch ≠ '\\') :
    stripFrom false s = s := by
  induction s with
  | nil => rfl
  | cons a rest ih =>
    have ha : a ≠ '\\' := h a (List.mem_cons_self _ _)
    simp only [stripFrom, ha, if_false]
    rw [ih (fun ch hch => h ch (List.mem_cons_of_mem _ hch))]

/-- The characters of `preprocess src` are the fields of the stripped source
joined by single blanks. -/
theorem preprocess_data (src : String) :
    (preprocess src).data =
      joinChars [' '] (fieldsChars (stripFrom false src.data)) := by
  simp [preprocess, strings_Join, strings_Fields, List.map_map, Function.comp_def]

theorem splitChars_ne_nil (sep : Char) (s : List Char) : splitChars sep s ≠ [] := by
  cases s with
  | nil => simp [splitChars]
  | cons a rest =>
    by_cases ha : a = sep
    · simp [splitChars, ha]
    · simp only [splitChars, ha, if_false]
      split <;> simp

/-- A separator-free piece in front of a text extends the first piece of the
text. -/
theorem splitChars_append (sep : Char) (w rest : List Char) (hw : sep ∉ w) :
    splitChars sep (w ++ rest) =
      (w ++ (splitChars sep rest).headD []) :: (splitChars sep rest).tail := by
  induction w with
  | nil =>
    cases h : splitChars sep rest with
    | nil => exact absurd h (splitChars_ne_nil sep rest)
    | cons x xs => simp [h]
  | cons a w ih =>
    have ha : a ≠ sep := fun h => hw (by rw [h]; exact List.mem_cons_self _ _)
    have ih2 := ih (fun h => hw (List.mem_cons_of_mem _ h))
    have hstep : splitChars sep (a :: (w ++ rest)) =
        match splitChars sep (w ++ rest) with
        | [] => [[a]]
        | x :: xs => (a :: x) :: xs := by
      rw [splitChars, if_neg ha]
    rw [List.cons_append, hstep, ih2]
    rfl

/-- Pieces without separator, joined by the separator, are split back into the
same pieces. -/
theorem splitChars_joinChars (sep : Char) (w : List Char) (ws : List (List Char))
    (hw : sep ∉ w) (hws : ∀ x ∈ ws, sep ∉ x) :
    splitChars sep (joinChars [sep] (w :: ws)) = w :: ws := by
  induction ws generalizing w with
  | nil =>
    have h := splitChars_append sep w [] hw
    simpa [joinChars, splitChars] using h
  | cons w2 ws ih =>
    have ih2 := ih w2 (hws w2 (List.mem_cons_self _ _))
      (fun x hx => hws x (List.mem_cons_of_mem _ hx))
    have hj : joinChars [sep] (w :: w2 :: ws) = w ++ (sep :: joinChars [sep] (w2 :: ws)) := by
      simp [joinChars]
    rw [hj, splitChars_append sep w _ hw]
    simp [splitChars, ih2]

/-- The tokens `Compile` scans: the fields of the comment-stripped source, or
the single empty token when there is no field. -/
theorem Compile_tokens (data : String) :
    strings_Split (preprocess data) ' ' =
      if fieldsChars (stripFrom false data.data) = [] then [""]
      else (fieldsChars (stripFrom false data.data)).map String.mk := by
  have hfields := fieldsChars_spec (stripFrom false data.data)
  unfold strings_Split
  rw [preprocess_data]
  cases hf : fieldsChars (stripFrom false data.data) with
  | nil => rfl
  | cons w ws =>
    rw [hf] at hfields
    have hns : ∀ x ∈ w :: ws, ' ' ∉ x := by
      intro x hx hmem
      have := ((hfields x hx).2 ' ' hmem).1
      rw [isSpace_blank] at this
      cases this
    rw [splitChars_joinChars ' ' w ws (hns w (List.mem_cons_self _ _))
      (fun x hx => hns x (List.mem_cons_of_mem _ hx))]
    simp

/-- No token `Compile` scans holds a blank character or a backslash; in
particular none holds a newline. -/
theorem Compile_tokens_clean (data : String) :
    ∀ t ∈ strings_Split (preprocess data) ' ',
      (∀ ch ∈ t.data, isSpace ch = false ∧ ch ≠ '\\') ∧ NoNewline t := by
  have hfields := fieldsChars_spec (stripFrom false data.data)
  have hchars : ∀ t ∈ strings_Split (preprocess data) ' ',
      ∀ ch ∈ t.data, isSpace ch = false ∧ ch ≠ '\\' := by
    intro t ht ch hch
    rw [Compile_tokens] at ht
    split_ifs at ht with hf
    · simp at ht; subst ht; simp at hch
    · obtain ⟨w, hw, rfl⟩ := List.mem_map.mp ht
      have h1 := (hfields w hw).2 ch hch
      exact ⟨h1.1, (mem_stripFrom _ false ch h1.2).1⟩
  intro t ht
  refine ⟨hchars t ht, ?_⟩
  intro hmem
  have := (hchars t ht _ hmem).1
  exact absurd this (by decide)

/-- C10: normalization is idempotent, `preprocess (preprocess s) = preprocess s`
for every source text `s`. -/
theorem preprocess_idempotent (s : String) : preprocess (preprocess s) = preprocess s := by
  have hfields := fieldsChars_spec (stripFrom false s.data)
  have hnb : ∀ ch ∈ (preprocess s).data, ch ≠ '\\' := by
    intro ch hch
    rw [preprocess_data] at hch
    rcases mem_joinChars _ _ _ hch with h | ⟨w, hw, hcw⟩
    · simp at h; subst h; decide
    · exact (mem_stripFrom _ false ch ((hfields w hw).2 ch hcw).2).1
  apply String.ext
  rw [preprocess_data (preprocess s), stripFrom_of_no_backslash _ hnb, preprocess_data s,
    fieldsChars_joinChars _ (fun x hx => ⟨(hfields x hx).1, fun ch hch => ((hfields x hx).2 ch hch).1⟩)]

/-! ## Layout of the artifact -/

theorem declaredFrom_exit (fuel : Nat) (c : Compiler) (tokens : List String) (i : Nat)
    (h : ¬ i < tokens.length) : declaredFrom (fuel + 1) c tokens i = [] := by
  rw [declaredFrom, dif_neg h]

theorem declaredFrom_continue (fuel : Nat) (c : Compiler) (tokens : List String) (i : Nat)
    (h : i < tokens.length) (he : (body c tokens i tokens[i]).err = none) :
    declaredFrom (fuel + 1) c tokens i =
      (if tokens[i] = "variable" then [tokens.getD (i + 1) ""] else [])
        ++ declaredFrom fuel (body c tokens i tokens[i]).c tokens
            (body c tokens i tokens[i]).i := by
  rw [declaredFrom, dif_pos h]
  simp only [he]

/-- At a successful exit the bss segment is the one at the start followed by
the entries of the declarations processed since, and the symbol table has
grown by the same names. -/
theorem scan_bssSegment (tokens : List String) :
    ∀ (fuel : Nat) (c : Compiler) (i : Nat) (c2 : Compiler),
      scan fuel c tokens i = some (c2, none) →
      c2.bssSegment = c.bssSegment ++ (declaredFrom fuel c tokens i).map bssEntry ∧
      c2.vars.map Prod.fst = c.vars.map Prod.fst ++ declaredFrom fuel c tokens i := by
  intro fuel
  induction fuel with
  | zero => intro c i c2 h; simp [scan] at h
  | succ f ih =>
    intro c i c2 h
    by_cases hi : i < tokens.length
    · cases he : (body c tokens i tokens[i]).err with
      | some e =>
        rw [scan_error f c tokens i hi e he] at h
        simp at h
      | none =>
        rw [scan_continue f c tokens i hi he] at h
        obtain ⟨ih1, ih2⟩ := ih _ _ c2 h
        rw [declaredFrom_continue f c tokens i hi he, ih1, ih2]
        rcases body_decl_cases c tokens i tokens[i] with
          ⟨hv, hb, hne⟩ | ⟨name, htok, hname, _, _, hv, hb⟩
        · have hnv : tokens[i] ≠ "variable" := fun hx => hne hx he
          rw [hv, hb, if_neg hnv]
          simp
        · obtain ⟨hlt, hget⟩ := getElem_of_getElem? hname
          have hd : tokens.getD (i + 1) "" = name := by
            simp [List.getD, hname]
          rw [hv, hb, if_pos htok, hd]
          simp [bssEntry]
    · rw [scan_exit f c tokens i hi] at h
      cases h
      simp [declaredFrom_exit f c tokens i hi]

/-- At the exit of the loop the data segment is the one at the start and the
log is the one at the start followed by well-shaped lines, which hold no
newline when no token holds one. -/
theorem scan_shape (tokens : List String) (fuel : Nat) (c : Compiler) (i : Nat)
    (r : Compiler × Option String) (h : scan fuel c tokens i = some r) :
    r.1.dataSegment = c.dataSegment ∧
    ∃ ls, r.1.output = c.output ++ ls ∧
      ∀ l ∈ ls, LogLine l ∧ ((∀ t ∈ tokens, NoNewline t) → NoNewline l) := by
  refine scan_invariant
    (fun c2 => c2.dataSegment = c.dataSegment ∧
      ∃ ls, c2.output = c.output ++ ls ∧
        ∀ l ∈ ls, LogLine l ∧ ((∀ t ∈ tokens, NoNewline t) → NoNewline l))
    tokens ?_ fuel c i r ⟨rfl, [], by simp, by simp⟩ h
  intro c1 j hj ⟨hd, ls, hout, hls⟩
  refine ⟨by rw [body_dataSegment, hd], ?_⟩
  obtain ⟨ls2, hout2, hls2⟩ := body_output c1 tokens j tokens[j]
  refine ⟨ls ++ ls2, by rw [hout2, hout, List.append_assoc], ?_⟩
  intro l hl
  rcases List.mem_append.mp hl with hl | hl
  · exact hls l hl
  · exact ⟨(hls2 l hl).1, fun hall => (hls2 l hl).2 (hall _ (List.getElem_mem hj))⟩

/-- A successful compilation is a successful exit of the loop, and its text is
`writeAsm` of the compiler at that exit. -/
theorem compileTokens_ok (tokens : List String) (text : String)
    (h : compileTokens tokens = some (.ok text)) :
    ∃ c, scan (tokens.length + 1) NewCompiler tokens 0 = some (c, none) ∧
      text = writeAsm c := by
  unfold compileTokens at h
  cases hs : scan (tokens.length + 1) NewCompiler tokens 0 with
  | none => rw [hs] at h; simp at h
  | some r =>
    rcases r with ⟨c, _ | e⟩
    · rw [hs] at h
      simp at h
      exact ⟨c, rfl, h.symm⟩
    · rw [hs] at h
      simp at h

/-- C7: for every successful compilation the text written is the newline-join
of the five header lines, the instruction log of the compiler at the exit of
the loop, the two trailer lines, the data segment and the bss segment, in this
order, and the data segment is the five lines `NewCompiler` sets up. -/
theorem artifact_is_join_of_regions (tokens : List String) (text : String)
    (h : compileTokens tokens = some (.ok text)) :
    ∃ c, scan (tokens.length + 1) NewCompiler tokens 0 = some (c, none) ∧
      text = strings_Join
        ([ "global main",
           "extern printf",
           "section .text",
           "main:",
           "    mov [stack_start], esp" ]
          ++ c.output
          ++ [ "    xor eax, eax",
               "    ret" ]
          ++ c.dataSegment
          ++ c.bssSegment) "\n" ∧
      c.dataSegment =
        [ "section .data",
          "fmt_str db \"%d \",0",
          "stack_msg db \"Stack: \",0",
          "stack_newline db \"\",10,0",
          "empty_stack_msg db \"<empty>\",10,0" ] := by
  obtain ⟨c, hs, ht⟩ := compileTokens_ok tokens text h
  exact ⟨c, hs, ht, (scan_shape tokens _ _ _ _ hs).1⟩

set_option maxRecDepth 100000 in
/-- C7 at the program `3 4 +`. -/
theorem artifact_is_join_of_regions_witness :
    compileTokens ["3", "4", "+"] =
      some (.ok "global main\nextern printf\nsection .text\nmain:\n    mov [stack_start], esp\n    push 3\n    push 4\n    pop eax\n    add [esp], eax\n    xor eax, eax\n    ret\nsection .data\nfmt_str db \"%d \",0\nstack_msg db \"Stack: \",0\nstack_newline db \"\",10,0\nempty_stack_msg db \"<empty>\",10,0\nsection .bss\nstack_start resd 1") ∧
    ∃ c, scan (["3", "4", "+"].length + 1) NewCompiler ["3", "4", "+"] 0 = some (c, none) ∧
      "global main\nextern printf\nsection .text\nmain:\n    mov [stack_start], esp\n    push 3\n    push 4\n    pop eax\n    add [esp], eax\n    xor eax, eax\n    ret\nsection .data\nfmt_str db \"%d \",0\nstack_msg db \"Stack: \",0\nstack_newline db \"\",10,0\nempty_stack_msg db \"<empty>\",10,0\nsection .bss\nstack_start resd 1" =
        strings_Join
        ([ "global main",
           "extern printf",
           "section .text",
           "main:",
           "    mov [stack_start], esp" ]
          ++ c.output
          ++ [ "    xor eax, eax",
               "    ret" ]
          ++ c.dataSegment
          ++ c.bssSegment) "\n" ∧
      c.dataSegment =
        [ "section .data",
          "fmt_str db \"%d \",0",
          "stack_msg db \"Stack: \",0",
          "stack_newline db \"\",10,0",
          "empty_stack_msg db \"<empty>\",10,0" ] :=
  ⟨rfl, artifact_is_join_of_regions ["3", "4", "+"] _ rfl⟩

theorem not_logLine_sections :
    ¬ LogLine "section .text" ∧ ¬ LogLine "section .data" ∧ ¬ LogLine "section .bss" := by
  simp [LogLine]

theorem bssEntry_getLast (name : String) : (bssEntry name).data.getLast? = some '1' := by
  simp [bssEntry, String.data_append, List.getLast?_append]

theorem bssEntry_ne_sections (name : String) :
    bssEntry name ≠ "section .text" ∧ bssEntry name ≠ "section .data" ∧
    bssEntry name ≠ "section .bss" := by
  have h := bssEntry_getLast name
  refine ⟨?_, ?_, ?_⟩ <;> intro he <;> rw [he] at h <;> simp at h

theorem bssEntry_noNewline (name : String) (h : NoNewline name) :
    NoNewline (bssEntry name) := by
  unfold NoNewline at h ⊢
  simp [bssEntry, String.data_append, h]

/-- Every processed declaration names a token of the program. -/
theorem declaredFrom_mem (tokens : List String) :
    ∀ (fuel : Nat) (c : Compiler) (i : Nat), ∀ n ∈ declaredFrom fuel c tokens i, n ∈ tokens := by
  intro fuel
  induction fuel with
  | zero => intro c i n hn; simp [declaredFrom] at hn
  | succ f ih =>
    intro c i n hn
    by_cases hi : i < tokens.length
    · cases he : (body c tokens i tokens[i]).err with
      | some e =>
        rw [declaredFrom, dif_pos hi] at hn
        simp [he] at hn
      | none =>
        rw [declaredFrom_continue f c tokens i hi he] at hn
        rcases List.mem_append.mp hn with hn | hn
        · split_ifs at hn with hv
          · rcases body_decl_cases c tokens i tokens[i] with
              ⟨_, _, hne⟩ | ⟨name, _, hname, _, _, _, _⟩
            · exact absurd he (hne hv)
            · obtain ⟨hlt, hget⟩ := getElem_of_getElem? hname
              have hd : tokens.getD (i + 1) "" = name := by simp [List.getD, hname]
              rw [hd] at hn
              simp at hn
              rw [hn, ← hget]
              exact List.getElem_mem hlt
          · simp at hn
        · exact ih _ _ n hn
    · rw [declaredFrom_exit f c tokens i hi] at hn
      simp at hn

/-- The lines of the text `writeAsm` builds are the lines it joined, when none
of them holds a newline. -/
theorem lines_of_writeAsm (c : Compiler) (h : ∀ l ∈ asmLines c, NoNewline l) :
    strings_Split (writeAsm c) '\n' = asmLines c := by
  have hne : asmLines c = "global main" :: (asmLines c).tail := rfl
  unfold writeAsm strings_Split strings_Join
  have hsep : ("\n" : String).data = ['\n'] := rfl
  rw [hsep]
  have hmap : ∀ l ∈ (asmLines c).map String.data, '\n' ∉ l := by
    intro l hl
    obtain ⟨x, hx, rfl⟩ := List.mem_map.mp hl
    exact h x hx
  rw [hne] at hmap ⊢
  rw [List.map_cons] at hmap ⊢
  rw [splitChars_joinChars '\n' _ _ (hmap _ (List.mem_cons_self _ _))
    (fun x hx => hmap x (List.mem_cons_of_mem _ hx))]
  simp [List.map_map, Function.comp_def]

/-- C8: in every successful compilation the lines `writeAsm` joins hold each of
`section .text`, `section .data`, `section .bss` exactly once, in this order:
the lines are two opening lines, `section .text`, the executable body around
the instruction log, `section .data`, four data lines, `section .bss`, the
stack-base slot and the cell entries; no line of the instruction log and no
cell entry is one of the three section lines.  The joined lines are the lines
of the text written (its pieces between newlines) whenever no token holds a
newline, and no token `Compile` scans ever holds one. -/
theorem sections_once_in_order (tokens : List String) (text : String)
    (h : compileTokens tokens = some (.ok text)) :
    ∃ c, scan (tokens.length + 1) NewCompiler tokens 0 = some (c, none) ∧
      text = strings_Join (asmLines c) "\n" ∧
      asmLines c =
        [ "global main", "extern printf" ]
          ++ [ "section .text" ]
          ++ ([ "main:", "    mov [stack_start], esp" ] ++ c.output
                ++ [ "    xor eax, eax", "    ret" ])
          ++ [ "section .data" ]
          ++ [ "fmt_str db \"%d \",0",
               "stack_msg db \"Stack: \",0",
               "stack_newline db \"\",10,0",
               "empty_stack_msg db \"<empty>\",10,0" ]
          ++ [ "section .bss" ]
          ++ ([ "stack_start resd 1" ] ++ (declarations tokens).map bssEntry) ∧
      (asmLines c).count "section .text" = 1 ∧
      (asmLines c).count "section .data" = 1 ∧
      (asmLines c).count "section .bss" = 1 ∧
      (∀ l ∈ c.output ++ (declarations tokens).map bssEntry,
        l ≠ "section .text" ∧ l ≠ "section .data" ∧ l ≠ "section .bss") ∧
      ((∀ t ∈ tokens, NoNewline t) → strings_Split text '\n' = asmLines c) ∧
      (∀ data, ∀ t ∈ strings_Split (preprocess data) ' ', NoNewline t) := by
  obtain ⟨c, hs, ht⟩ := compileTokens_ok tokens text h
  obtain ⟨hdata, ls, hout, hls⟩ := scan_shape tokens _ _ _ _ hs
  obtain ⟨hbss, _⟩ := scan_bssSegment tokens _ _ _ _ hs
  have hout2 : c.output = ls := by rw [hout]; rfl
  have hno : ∀ l ∈ c.output ++ (declarations tokens).map bssEntry,
      l ≠ "section .text" ∧ l ≠ "section .data" ∧ l ≠ "section .bss" := by
    intro l hl
    rcases List.mem_append.mp hl with hl | hl
    · have hll : LogLine l := (hls l (by rw [← hout2]; exact hl)).1
      refine ⟨?_, ?_, ?_⟩ <;> intro he <;> rw [he] at hll
      · exact not_logLine_sections.1 hll
      · exact not_logLine_sections.2.1 hll
      · exact not_logLine_sections.2.2 hll
    · obtain ⟨name, _, hname⟩ := List.mem_map.mp hl
      rw [← hname]
      exact bssEntry_ne_sections name
  have hc1 : ∀ x : String, (x = "section .text" ∨ x = "section .data" ∨ x = "section .bss") →
      List.count x c.output = 0 ∧ List.count x ((declarations tokens).map bssEntry) = 0 := by
    intro x hx
    constructor
    · apply List.count_eq_zero.mpr
      intro hmem
      have := hno x (List.mem_append_left _ hmem)
      rcases hx with hx | hx | hx
      · exact this.1 hx
      · exact this.2.1 hx
      · exact this.2.2 hx
    · apply List.count_eq_zero.mpr
      intro hmem
      have := hno x (List.mem_append_right _ hmem)
      rcases hx with hx | hx | hx
      · exact this.1 hx
      · exact this.2.1 hx
      · exact this.2.2 hx
  have hlines : asmLines c =
        [ "global main", "extern printf" ]
          ++ [ "section .text" ]
          ++ ([ "main:", "    mov [stack_start], esp" ] ++ c.output
                ++ [ "    xor eax, eax", "    ret" ])
          ++ [ "section .data" ]
          ++ [ "fmt_str db \"%d \",0",
               "stack_msg db \"Stack: \",0",
               "stack_newline db \"\",10,0",
               "empty_stack_msg db \"<empty>\",10,0" ]
          ++ [ "section .bss" ]
          ++ ([ "stack_start resd 1" ] ++ (declarations tokens).map bssEntry) := by
    unfold asmLines
    rw [hdata, hbss]
    simp [NewCompiler, declarations]
  have hsingle : (∀ t ∈ tokens, NoNewline t) → ∀ l ∈ asmLines c, NoNewline l := by
    intro hall l hl
    rw [hlines] at hl
    simp only [List.mem_append] at hl
    rcases hl with (((((hl | hl) | ((hl | hl) | hl)) | hl) | hl) | hl) | (hl | hl)
    · revert l; simp [NoNewline]
    · revert l; simp [NoNewline]
    · revert l; simp [NoNewline]
    · exact (hls l (by rw [← hout2]; exact hl)).2 hall
    · revert l; simp [NoNewline]
    · revert l; simp [NoNewline]
    · revert l; simp [NoNewline]
    · revert l; simp [NoNewline]
    · revert l; simp [NoNewline]
    · obtain ⟨name, hname, rfl⟩ := List.mem_map.mp hl
      exact bssEntry_noNewline name (hall name (declaredFrom_mem tokens _ _ _ name hname))
  refine ⟨c, hs, ht, hlines, ?_, ?_, ?_, hno, ?_, fun data t ht => (Compile_tokens_clean data t ht).2⟩
  · rw [hlines]
    simp only [List.count_append, (hc1 "section .text" (Or.inl rfl)).1,
      (hc1 "section .text" (Or.inl rfl)).2]
    decide
  · rw [hlines]
    simp only [List.count_append, (hc1 "section .data" (Or.inr (Or.inl rfl))).1,
      (hc1 "section .data" (Or.inr (Or.inl rfl))).2]
    decide
  · rw [hlines]
    simp only [List.count_append, (hc1 "section .bss" (Or.inr (Or.inr rfl))).1,
      (hc1 "section .bss" (Or.inr (Or.inr rfl))).2]
    decide
  · intro hall
    rw [ht]
    exact lines_of_writeAsm c (hsingle hall)

/-- C8 at the program `variable section section`, whose cell is named
`section`. -/
theorem sections_once_in_order_witness :
    Compile "variable section section" =
      compileTokens ["variable", "section", "section"] ∧
    ∃ text c,
      compileTokens ["variable", "section", "section"] = some (.ok text) ∧
      text = strings_Join (asmLines c) "\n" ∧
      (asmLines c).count "section .text" = 1 ∧
      (asmLines c).count "section .data" = 1 ∧
      (asmLines c).count "section .bss" = 1 ∧
      strings_Split text '\n' = asmLines c ∧
      c.output = ["    push section"] ∧
      declarations ["variable", "section", "section"] = ["section"] := by
  have hc : compileTokens ["variable", "section", "section"] =
      some (.ok (writeAsm { NewCompiler with
        vars := [("section", 2)],
        output := ["    push section"],
        bssSegment := ["section .bss", "stack_start resd 1", "section: resd 1"] })) := rfl
  obtain ⟨c, hs, ht, _, h1, h2, h3, _, hl, _⟩ :=
    sections_once_in_order ["variable", "section", "section"] _ hc
  have hs2 : scan (["variable", "section", "section"].length + 1) NewCompiler
      ["variable", "section", "section"] 0 =
      some ({ NewCompiler with
        vars := [("section", 2)],
        output := ["    push section"],
        bssSegment := ["section .bss", "stack_start resd 1", "section: resd 1"] }, none) := rfl
  rw [hs2] at hs
  cases hs
  have hnl : ∀ t ∈ ["variable", "section", "section"], NoNewline t := by
    intro t ht
    simp at ht
    rcases ht with rfl | rfl <;> simp [NoNewline]
  exact ⟨rfl, _, _, hc, ht, h1, h2, h3, hl hnl, rfl, rfl⟩

/-- C9: in every successful compilation the bss segment written is
`section .bss`, `stack_start resd 1`, then the line `name: resd 1` of each
`variable name` declaration the loop processed, in processing order, and
nothing else; the symbol table holds exactly these names; and the bss segment
is the last region of the text. -/
theorem bss_lists_declarations (tokens : List String) (text : String)
    (h : compileTokens tokens = some (.ok text)) :
    ∃ c, scan (tokens.length + 1) NewCompiler tokens 0 = some (c, none) ∧
      c.bssSegment =
        [ "section .bss", "stack_start resd 1" ]
          ++ (declarations tokens).map (fun name => name ++ ": resd 1") ∧
      c.vars.map Prod.fst = declarations tokens ∧
      text = strings_Join
        ([ "global main",
           "extern printf",
           "section .text",
           "main:",
           "    mov [stack_start], esp" ]
          ++ c.output
          ++ [ "    xor eax, eax",
               "    ret" ]
          ++ c.dataSegment
          ++ ([ "section .bss", "stack_start resd 1" ]
                ++ (declarations tokens).map (fun name => name ++ ": resd 1"))) "\n" := by
  obtain ⟨c, hs, ht⟩ := compileTokens_ok tokens text h
  obtain ⟨hbss, hvars⟩ := scan_bssSegment tokens _ _ _ _ hs
  have hb : c.bssSegment =
      [ "section .bss", "stack_start resd 1" ]
        ++ (declarations tokens).map (fun name => name ++ ": resd 1") := by
    rw [hbss]; rfl
  refine ⟨c, hs, hb, ?_, ?_⟩
  · rw [hvars]; simp [NewCompiler, declarations]
  · rw [ht, ← hb]; rfl

/-- C9 at the program `variable a variable b`. -/
theorem bss_lists_declarations_witness :
    declarations ["variable", "a", "variable", "b"] = ["a", "b"] ∧
    ∃ text c, compileTokens ["variable", "a", "variable", "b"] = some (.ok text) ∧
      scan 5 NewCompiler ["variable", "a", "variable", "b"] 0 = some (c, none) ∧
      c.bssSegment =
        [ "section .bss", "stack_start resd 1" ]
          ++ (declarations ["variable", "a", "variable", "b"]).map
              (fun name => name ++ ": resd 1") ∧
      c.bssSegment = ["section .bss", "stack_start resd 1", "a: resd 1", "b: resd 1"] := by
  have hc : compileTokens ["variable", "a", "variable", "b"] =
      some (.ok (writeAsm { NewCompiler with
        vars := [("a", 2), ("b", 3)],
        bssSegment := ["section .bss", "stack_start resd 1", "a: resd 1", "b: resd 1"] })) := rfl
  obtain ⟨c, hs, hb, _, _⟩ := bss_lists_declarations ["variable", "a", "variable", "b"] _ hc
  exact ⟨rfl, _, c, hc, hs, hb, by rw [hb]; rfl⟩

/-! ## Case analysis on the dispatch table -/

/-- Case analysis on the dispatch table: a property that holds of each of the
sixteen handlers under its own key holds of every entry of the table. -/
theorem words_elim (P : (Compiler → List String → Nat → Ret) → Prop) (tok : String)
    (fn : Compiler → List String → Nat → Ret) (h : words tok = some fn)
    (hAdd : tok = "+" → P compileAdd)
    (hSub : tok = "-" → P compileSub)
    (hMul : tok = "*" → P compileMul)
    (hDup : tok = "dup" → P compileDup)
    (hSwap : tok = "swap" → P compileSwap)
    (hTuck : tok = "tuck" → P compileTuck)
    (hNeg : tok = "neg" → P compileNeg)
    (hDrop : tok = "drop" → P compileDrop)
    (hOver : tok = "over" → P compileOver)
    (hMod : tok = "mod" → P compileMod)
    (hNip : tok = "nip" → P compileNip)
    (hDot : tok = "." → P compileDot)
    (hDotS : tok = ".s" → P compileDotS)
    (hStore : tok = "!" → P compileStore)
    (hFetch : tok = "@" → P compileFetch)
    (hVariable : tok = "variable" → P compileVariable) : P fn := by
  unfold words at h
  by_cases e0 : tok = "+"
  · rw [if_pos e0] at h
    cases h
    exact hAdd e0
  rw [if_neg e0] at h
  by_cases e1 : tok = "-"
  · rw [if_pos e1] at h
    cases h
    exact hSub e1
  rw [if_neg e1] at h
  by_cases e2 : tok = "*"
  · rw [if_pos e2] at h
    cases h
    exact hMul e2
  rw [if_neg e2] at h
  by_cases e3 : tok = "dup"
  · rw [if_pos e3] at h
    cases h
    exact hDup e3
  rw [if_neg e3] at h
  by_cases e4 : tok = "swap"
  · rw [if_pos e4] at h
    cases h
    exact hSwap e4
  rw [if_neg e4] at h
  by_cases e5 : tok = "tuck"
  · rw [if_pos e5] at h
    cases h
    exact hTuck e5
  rw [if_neg e5] at h
  by_cases e6 : tok = "neg"
  · rw [if_pos e6] at h
    cases h
    exact hNeg e6
  rw [if_neg e6] at h
  by_cases e7 : tok = "drop"
  · rw [if_pos e7] at h
    cases h
    exact hDrop e7
  rw [if_neg e7] at h
  by_cases e8 : tok = "over"
  · rw [if_pos e8] at h
    cases h
    exact hOver e8
  rw [if_neg e8] at h
  by_cases e9 : tok = "mod"
  · rw [if_pos e9] at h
    cases h
    exact hMod e9
  rw [if_neg e9] at h
  by_cases e10 : tok = "nip"
  · rw [if_pos e10] at h
    cases h
    exact hNip e10
  rw [if_neg e10] at h
  by_cases e11 : tok = "."
  · rw [if_pos e11] at h
    cases h
    exact hDot e11
  rw [if_neg e11] at h
  by_cases e12 : tok = ".s"
  · rw [if_pos e12] at h
    cases h
    exact hDotS e12
  rw [if_neg e12] at h
  by_cases e13 : tok = "!"
  · rw [if_pos e13] at h
    cases h
    exact hStore e13
  rw [if_neg e13] at h
  by_cases e14 : tok = "@"
  · rw [if_pos e14] at h
    cases h
    exact hFetch e14
  rw [if_neg e14] at h
  by_cases ev : tok = "variable"
  · rw [if_pos ev] at h
    cases h
    exact hVariable ev
  rw [if_neg ev] at h
  cases h


/-- No handler other than `compileVariable` looks at the token list. -/
theorem words_ignore_args (tok : String) (fn : Compiler → List String → Nat → Ret)
    (h : words tok = some fn) (hv : tok ≠ "variable") :
    ∀ c a1 a2 i, fn c a1 i = fn c a2 i := by
  refine words_elim (fun f => ∀ c a1 a2 i, f c a1 i = f c a2 i) tok fn h
    ?_ ?_ ?_ ?_ ?_ ?_ ?_ ?_ ?_ ?_ ?_ ?_ ?_ ?_ ?_ (fun e => absurd e hv) <;>
  · intro _ c a1 a2 i
    rfl

/-! ## Line comments -/

/-- Comment stripping of a text followed by more text is the stripping of the
text followed by the stripping of the rest in the mode the text ends in. -/
theorem stripFrom_append (a : List Char) :
    ∀ m : Bool, ∃ m2 : Bool, ∀ rest, stripFrom m (a ++ rest) = stripFrom m a ++ stripFrom m2 rest := by
  induction a with
  | nil => intro m; exact ⟨m, fun rest => by cases m <;> simp [stripFrom]⟩
  | cons x a ih =>
    intro m
    cases m with
    | true =>
      by_cases hx : x = '\n'
      · obtain ⟨m2, h⟩ := ih false
        exact ⟨m2, fun rest => by simp [stripFrom, hx, h]⟩
      · obtain ⟨m2, h⟩ := ih true
        exact ⟨m2, fun rest => by simp [stripFrom, hx, h]⟩
    | false =>
      by_cases hx : x = '\\'
      · obtain ⟨m2, h⟩ := ih true
        exact ⟨m2, fun rest => by simp [stripFrom, hx, h]⟩
      · obtain ⟨m2, h⟩ := ih false
        exact ⟨m2, fun rest => by simp [stripFrom, hx, h]⟩

/-- Inside a comment, text without newline is dropped up to the newline. -/
theorem stripFrom_comment_body (c b : List Char) (hc : '\n' ∉ c) :
    stripFrom true (c ++ '\n' :: b) = '\n' :: stripFrom false b := by
  induction c with
  | nil => simp [stripFrom]
  | cons x c ih =>
    have hx : x ≠ '\n' := fun h => hc (by rw [h]; exact List.mem_cons_self _ _)
    have ih2 := ih (fun h => hc (List.mem_cons_of_mem _ h))
    simp [stripFrom, hx, ih2]

/-- In either mode a comment up to its newline strips to what the bare newline
strips to. -/
theorem stripFrom_comment (m : Bool) (c b : List Char) (hc : '\n' ∉ c) :
    stripFrom m ('\\' :: (c ++ '\n' :: b)) = stripFrom m ('\n' :: b) := by
  cases m with
  | true =>
    have h1 : stripFrom true ('\\' :: (c ++ '\n' :: b)) = stripFrom true (c ++ '\n' :: b) := by
      simp [stripFrom]
    rw [h1, stripFrom_comment_body c b hc]
    simp [stripFrom]
  | false =>
    have h1 : stripFrom false ('\\' :: (c ++ '\n' :: b)) = stripFrom true (c ++ '\n' :: b) := by
      simp [stripFrom]
    rw [h1, stripFrom_comment_body c b hc]
    simp [stripFrom]

/-- C11: a line comment is stripped from its backslash through the end of its
line, and nothing else is.  For all texts `a`, `b` and every comment body `c`
without newline, `preprocess (a ++ "\\" ++ c ++ "\n" ++ b)` is
`preprocess (a ++ "\n" ++ b)`, and so is the comment-stripped text before the
fields are taken.  No token `Compile` scans holds a backslash or a blank
character, and the text on the line after a comment is tokenized: `1 2 \ note`,
newline, `3` gives the tokens `1`, `2`, `3`. -/
theorem comment_is_stripped_to_end_of_line (a b c : String) (hc : '\n' ∉ c.data) :
    preprocess (a ++ "\\" ++ c ++ "\n" ++ b) = preprocess (a ++ "\n" ++ b) ∧
    stripFrom false (a ++ "\\" ++ c ++ "\n" ++ b).data = stripFrom false (a ++ "\n" ++ b).data ∧
    (∀ data, ∀ t ∈ strings_Split (preprocess data) ' ',
      ∀ ch ∈ t.data, isSpace ch = false ∧ ch ≠ '\\') ∧
    strings_Split (preprocess "1 2 \\ note\n3") ' ' = ["1", "2", "3"] := by
  have hs : stripFrom false (a ++ "\\" ++ c ++ "\n" ++ b).data =
      stripFrom false (a ++ "\n" ++ b).data := by
    have e1 : (a ++ "\\" ++ c ++ "\n" ++ b).data = a.data ++ ('\\' :: (c.data ++ '\n' :: b.data)) := by
      simp [String.data_append]
    have e2 : (a ++ "\n" ++ b).data = a.data ++ ('\n' :: b.data) := by
      simp [String.data_append]
    obtain ⟨m2, h⟩ := stripFrom_append a.data false
    rw [e1, e2, h, h, stripFrom_comment m2 c.data b.data hc]
  refine ⟨?_, hs, fun data t ht => (Compile_tokens_clean data t ht).1, rfl⟩
  apply String.ext
  rw [preprocess_data, preprocess_data, hs]

/-- C11 at `a = "1 2 "`, `c = " note"`, `b = "3"`. -/
theorem comment_is_stripped_to_end_of_line_witness :
    '\n' ∉ " note".data ∧
    preprocess ("1 2 " ++ "\\" ++ " note" ++ "\n" ++ "3") =
      preprocess ("1 2 " ++ "\n" ++ "3") ∧
    preprocess ("1 2 " ++ "\n" ++ "3") = "1 2 3" :=
  ⟨by decide,
    (comment_is_stripped_to_end_of_line "1 2 " "3" " note" (by decide)).1,
    rfl⟩

/-! ## Decimal printing and parsing -/

/-- The characters core prints for a positive number are its digits, most
significant first. -/
theorem toDigitsCore_eq_digits (fuel : Nat) :
    ∀ (n : Nat) (ds : List Char), 0 < n → n < fuel →
      Nat.toDigitsCore 10 fuel n ds = ((Nat.digits 10 n).reverse.map Nat.digitChar) ++ ds := by
  induction fuel with
  | zero => intro n ds _ h; omega
  | succ f ih =>
    intro n ds hn hf
    rw [Nat.digits_def' (by decide) hn]
    simp only [Nat.toDigitsCore]
    by_cases h0 : n / 10 = 0
    · simp [h0]
    · rw [if_neg h0, ih (n / 10) _ (Nat.pos_of_ne_zero h0) (by omega)]
      simp

theorem toDigits_eq_digits (n : Nat) (hn : 0 < n) :
    Nat.toDigits 10 n = (Nat.digits 10 n).reverse.map Nat.digitChar := by
  unfold Nat.toDigits
  rw [toDigitsCore_eq_digits (n + 1) n [] hn (by omega)]
  simp

theorem digitChar_value (d : Nat) (hd : d < 10) :
    '0'.toNat ≤ (Nat.digitChar d).toNat ∧ (Nat.digitChar d).toNat ≤ '9'.toNat ∧
    (Nat.digitChar d).toNat - '0'.toNat = d := by
  interval_cases d <;> decide

theorem digitsValue_map_digitChar (l : List Nat) :
    ∀ acc, (∀ d ∈ l, d < 10) →
      digitsValue acc (l.map Nat.digitChar) = some (l.foldl (fun a d => a * 10 + d) acc) := by
  induction l with
  | nil => intro acc _; rfl
  | cons d l ih =>
    intro acc h
    obtain ⟨h1, h2, h3⟩ := digitChar_value d (h d (List.mem_cons_self _ _))
    have ih2 := ih (acc * 10 + d) (fun x hx => h x (List.mem_cons_of_mem _ hx))
    simp only [List.map_cons, digitsValue, h1, h2, and_self, if_true, h3, List.foldl_cons]
    exact ih2

theorem foldl_reverse_eq_ofDigits (l : List Nat) :
    (l.reverse).foldl (fun a d => a * 10 + d) 0 = Nat.ofDigits 10 l := by
  induction l with
  | nil => rfl
  | cons d l ih =>
    rw [List.reverse_cons, List.foldl_append, ih, Nat.ofDigits_cons]
    simp only [List.foldl_cons, List.foldl_nil]
    omega

/-- Parsing the printed decimal digits of a number gives the number back. -/
theorem digitsValue_toDigits (n : Nat) : digitsValue 0 (Nat.toDigits 10 n) = some n := by
  rcases Nat.eq_zero_or_pos n with h | h
  · subst h; rfl
  · rw [toDigits_eq_digits n h, digitsValue_map_digitChar _ 0, foldl_reverse_eq_ofDigits,
      Nat.ofDigits_digits]
    intro d hd
    exact Nat.digits_lt_base (by decide) (List.mem_reverse.mp hd)

theorem fmtNat_data (n : Nat) : (fmtNat n).data = Nat.toDigits 10 n := rfl

/-- Distinct counters print differently. -/
theorem fmtNat_injective (n m : Nat) (h : fmtNat n = fmtNat m) : n = m := by
  have h1 := digitsValue_toDigits n
  have h2 := digitsValue_toDigits m
  rw [← fmtNat_data, h, fmtNat_data, h2] at h1
  exact (Option.some.inj h1).symm

theorem toDigits_head (n : Nat) :
    ∃ d ds, Nat.toDigits 10 n = d :: ds ∧ d ≠ '-' ∧ d ≠ '+' := by
  have h := digitsValue_toDigits n
  cases hl : Nat.toDigits 10 n with
  | nil =>
    rcases Nat.eq_zero_or_pos n with h0 | h0
    · subst h0; exact absurd hl (by decide)
    · rw [toDigits_eq_digits n h0] at hl
      have hne : Nat.digits 10 n ≠ [] :=
        Nat.digits_ne_nil_iff_ne_zero.mpr (Nat.pos_iff_ne_zero.mp h0)
      rw [List.map_eq_nil_iff, List.reverse_eq_nil_iff] at hl
      exact absurd hl hne
  | cons d ds =>
    refine ⟨d, ds, rfl, ?_, ?_⟩
    · intro hd; subst hd; rw [hl] at h; simp [digitsValue] at h
    · intro hd; subst hd; rw [hl] at h; simp [digitsValue] at h

/-- `strconv.Atoi` reads back what `%d` prints, for every 64-bit `int`. -/
theorem strconv_Atoi_fmtInt (a : Int) (hlo : -(2 : Int) ^ 63 ≤ a) (hhi : a < (2 : Int) ^ 63) :
    strconv_Atoi (fmtInt a) = some a := by
  cases a with
  | ofNat n =>
    obtain ⟨d, ds, hl, hm, hp⟩ := toDigits_head n
    have hv := digitsValue_toDigits n
    have hdata : (fmtInt (Int.ofNat n)).data = d :: ds := by
      rw [← hl]; rfl
    have hn : n < 9223372036854775808 := by
      have h2 : (n : Int) < 2 ^ 63 := hhi
      norm_num at h2
      omega
    rw [hl] at hv
    unfold strconv_Atoi
    rw [hdata]
    simp [hm, hp, hv, hn]
  | negSucc n =>
    obtain ⟨d, ds, hl, hm, hp⟩ := toDigits_head (n + 1)
    have hv := digitsValue_toDigits (n + 1)
    have hdata : (fmtInt (Int.negSucc n)).data = '-' :: d :: ds := by
      rw [← hl]; rfl
    have hn : n ≤ 9223372036854775807 := by
      have h2 : -(2 : Int) ^ 63 ≤ Int.negSucc n := hlo
      rw [Int.negSucc_eq] at h2
      norm_num at h2
      omega
    rw [hl] at hv
    unfold strconv_Atoi
    rw [hdata]
    simp [hv, hn, Int.negSucc_eq]

/-! ## The label allocator -/

theorem newLabels_spec (ps : List String) :
    ∀ c : Compiler,
      (newLabels c ps).2 =
        List.zipWith (fun p j => p ++ "_" ++ fmtNat j) ps
          (List.range' (c.labelCounter + 1) ps.length) ∧
      (newLabels c ps).1 = { c with labelCounter := c.labelCounter + ps.length } := by
  induction ps with
  | nil => intro c; exact ⟨rfl, rfl⟩
  | cons p ps ih =>
    intro c
    obtain ⟨h1, h2⟩ := ih (newLabel c p).1
    refine ⟨?_, ?_⟩
    · simp only [newLabels, h1, List.length_cons, List.range'_succ, List.zipWith_cons_cons]
      rfl
    · simp only [newLabels, h2, List.length_cons]
      simp [newLabel, Nat.add_assoc, Nat.add_comm 1]

/-- C12: the label allocator.  On a fresh compiler the counter is 0; the calls
`newLabel p1`, ..., `newLabel pk` return `p1_1`, ..., `pk_k`, the number printed
in decimal, whatever the prefixes are; each call adds exactly 1 to the counter
and changes nothing else; and from any compiler the j-th call returns the
prefix followed by `_` and the counter at the start plus j. -/
theorem label_allocator_contract (ps : List String) (c : Compiler) (p : String) :
    NewCompiler.labelCounter = 0 ∧
    (newLabels NewCompiler ps).2 =
      List.zipWith (fun q j => q ++ "_" ++ fmtNat j) ps (List.range' 1 ps.length) ∧
    (newLabels NewCompiler ps).1.labelCounter = ps.length ∧
    (newLabel c p).2 = p ++ "_" ++ fmtNat (c.labelCounter + 1) ∧
    (newLabel c p).1 = { c with labelCounter := c.labelCounter + 1 } ∧
    (newLabels c ps).2 =
      List.zipWith (fun q j => q ++ "_" ++ fmtNat j) ps
        (List.range' (c.labelCounter + 1) ps.length) ∧
    (∀ j, digitsValue 0 (fmtNat j).data = some j) ∧
    (newLabels NewCompiler ["print_stack", "end_stack", "print_stack", "x", "end_stack"]).2 =
      ["print_stack_1", "end_stack_2", "print_stack_3", "x_4", "end_stack_5"] ∧
    fmtNat 10 = "10" := by
  obtain ⟨h1, h2⟩ := newLabels_spec ps NewCompiler
  refine ⟨rfl, h1, by rw [h2]; simp [NewCompiler], rfl, rfl, (newLabels_spec ps c).1,
    digitsValue_toDigits, rfl, rfl⟩

/-- C14: composite words are the sequencing of their primitives.  From every
compiler state the lines `tuck` appends to the log are the lines `swap` appends
followed by the lines `over` appends, and the lines `nip` appends are those of
`swap` followed by those of `drop`, whatever the states the primitives are
called in; the compiler `tuck` (`nip`) leaves is the one `over` (`drop`) leaves
when called on what `swap` leaves; and neither composite changes the symbol
table, the label counter, the data segment or the bss segment. -/
theorem composites_sequence_primitives (c : Compiler) (args : List String) (i : Nat)
    (c1 c2 : Compiler) (j k : Nat) :
    appended compileTuck c args i =
      appended compileSwap c1 args j ++ appended compileOver c2 args k ∧
    appended compileNip c args i =
      appended compileSwap c1 args j ++ appended compileDrop c2 args k ∧
    (compileTuck c args i).c.output =
      c.output ++ appended compileSwap c args i ++ appended compileOver c args i ∧
    (compileNip c args i).c.output =
      c.output ++ appended compileSwap c args i ++ appended compileDrop c args i ∧
    (compileTuck c args i).c =
      (compileOver (compileSwap c args i).c args (compileSwap c args i).i).c ∧
    (compileNip c args i).c =
      (compileDrop (compileSwap c args i).c args (compileSwap c args i).i).c ∧
    (compileTuck c args i).c.vars = c.vars ∧
    (compileTuck c args i).c.labelCounter = c.labelCounter ∧
    (compileTuck c args i).c.dataSegment = c.dataSegment ∧
    (compileTuck c args i).c.bssSegment = c.bssSegment ∧
    (compileNip c args i).c.vars = c.vars ∧
    (compileNip c args i).c.labelCounter = c.labelCounter ∧
    (compileNip c args i).c.dataSegment = c.dataSegment ∧
    (compileNip c args i).c.bssSegment = c.bssSegment ∧
    appended compileSwap c args i =
      ["    pop eax", "    pop ebx", "    push eax", "    push ebx"] ∧
    appended compileOver c args i = ["    mov eax, [esp+4]", "    push eax"] ∧
    appended compileDrop c args i = ["    add esp, 4"] := by
  have hs : ∀ (d : Compiler) (n : Nat), appended compileSwap d args n =
      ["    pop eax", "    pop ebx", "    push eax", "    push ebx"] := by
    intro d n; simp [appended, compileSwap]
  have ho : ∀ (d : Compiler) (n : Nat), appended compileOver d args n =
      ["    mov eax, [esp+4]", "    push eax"] := by
    intro d n; simp [appended, compileOver]
  have hd : ∀ (d : Compiler) (n : Nat), appended compileDrop d args n =
      ["    add esp, 4"] := by
    intro d n; simp [appended, compileDrop]
  refine ⟨?_, ?_, ?_, ?_, rfl, rfl, rfl, rfl, rfl, rfl, rfl, rfl, rfl, rfl, hs c i, ho c i,
    hd c i⟩
  · rw [hs, ho]; simp [appended, compileTuck, compileSwap, compileOver]
  · rw [hs, hd]; simp [appended, compileNip, compileSwap, compileDrop]
  · rw [hs, ho]; simp [compileTuck, compileSwap, compileOver]
  · rw [hs, hd]; simp [compileNip, compileSwap, compileDrop]

/-! ## Labels -/

theorem indented_of_words (tok : String) (fn : Compiler → List String → Nat → Ret)
    (h : words tok = some fn) (hs : tok ≠ ".s") (hv : tok ≠ "variable") : Indented fn := by
  refine words_elim Indented tok fn h ?_ ?_ ?_ ?_ ?_ ?_ ?_ ?_ ?_ ?_ ?_ ?_
    (fun e => absurd e hs) ?_ ?_ (fun e => absurd e hv)
  · intro _; constructor <;> intro c args i <;> simp [compileAdd]
  · intro _; constructor <;> intro c args i <;> simp [compileSub]
  · intro _; constructor <;> intro c args i <;> simp [compileMul]
  · intro _; constructor <;> intro c args i <;> simp [compileDup]
  · intro _; constructor <;> intro c args i <;> simp [compileSwap]
  · intro _; constructor <;> intro c args i <;> simp [compileTuck, compileSwap, compileOver]
  · intro _; constructor <;> intro c args i <;> simp [compileNeg]
  · intro _; constructor <;> intro c args i <;> simp [compileDrop]
  · intro _; constructor <;> intro c args i <;> simp [compileOver]
  · intro _; constructor <;> intro c args i <;> simp [compileMod]
  · intro _; constructor <;> intro c args i <;> simp [compileNip, compileSwap, compileDrop]
  · intro _; constructor <;> intro c args i <;> simp [compileDot]
  · intro _; constructor <;> intro c args i <;> simp [compileStore]
  · intro _; constructor <;> intro c args i <;> simp [compileFetch]

theorem words_dotS : words ".s" = some compileDotS := rfl

theorem body_dotS (c : Compiler) (tokens : List String) (i : Nat) :
    body c tokens i ".s" = compileDotS c tokens i := rfl

/-- A label is not an indented line, with or without its colon. -/
theorem isLabel_head (k : Nat) (L : String) (h : IsLabel k L) :
    (L ++ ":").data.head? ≠ some ' ' ∧ L.data.head? ≠ some ' ' := by
  rcases h with h | h <;> subst h <;> simp [String.data_append]

/-- A label carries one counter value only. -/
theorem isLabel_unique (k m : Nat) (L : String) (hk : IsLabel k L) (hm : IsLabel m L) :
    k = m := by
  rcases hk with hk | hk <;> rcases hm with hm | hm <;> rw [hk] at hm
  · have h := congrArg String.data hm
    simp only [String.data_append, List.append_assoc] at h
    have h2 := List.append_cancel_left (List.append_cancel_left h)
    exact fmtNat_injective k m (String.ext h2)
  · have h := congrArg String.data hm
    simp [String.data_append] at h
  · have h := congrArg String.data hm
    simp [String.data_append] at h
  · have h := congrArg String.data hm
    simp only [String.data_append, List.append_assoc] at h
    have h2 := List.append_cancel_left (List.append_cancel_left h)
    exact fmtNat_injective k m (String.ext h2)

theorem label_line_inj (L1 L2 : String) (h : L1 ++ ":" = L2 ++ ":") : L1 = L2 := by
  have h2 := congrArg String.data h
  simp only [String.data_append] at h2
  exact String.ext (List.append_cancel_right h2)

theorem count_of_indented (ls : List String) (x : String)
    (hls : ∀ l ∈ ls, l.data.head? = some ' ') (hx : x.data.head? ≠ some ' ') :
    x ∉ ls := fun hmem => hx (hls x hmem)

theorem count_middle (x : String) (A B : List String) (hA : x ∉ A) (hB : x ∉ B) :
    (A ++ x :: B).count x = 1 := by
  rw [List.count_append, List.count_cons_self, List.count_eq_zero.mpr hA,
    List.count_eq_zero.mpr hB]

theorem stepLabels_dotS (c : Compiler) :
    stepLabels c ".s" =
      [ "print_stack" ++ "_" ++ fmtNat (c.labelCounter + 1),
        "end_stack" ++ "_" ++ fmtNat (c.labelCounter + 1 + 1) ] := rfl

theorem stepLabels_other (c : Compiler) (tok : String) (h : tok ≠ ".s") :
    stepLabels c tok = [] := by
  unfold stepLabels
  rw [if_neg h]

theorem count_middle2 (y x : String) (A B C : List String) (hA : y ∉ A) (hx : y ≠ x)
    (hB : y ∉ B) (hC : y ∉ C) : (A ++ x :: (B ++ y :: C)).count y = 1 := by
  have h : A ++ x :: (B ++ y :: C) = (A ++ x :: B) ++ y :: C := by simp
  rw [h]
  apply count_middle _ _ _ _ hC
  intro hmem
  rcases List.mem_append.mp hmem with hmem | hmem
  · exact hA hmem
  · rcases List.mem_cons.mp hmem with hmem | hmem
    · exact hx hmem
    · exact hB hmem

/-- What a step does to the log and to the label counter. -/
theorem body_step_labels (c : Compiler) (tokens : List String) (i : Nat) (tok : String) :
    ∃ ls, (body c tokens i tok).c.output = c.output ++ ls ∧
      (body c tokens i tok).c.labelCounter = c.labelCounter + (stepLabels c tok).length ∧
      (stepLabels c tok).Nodup ∧
      (∀ L ∈ stepLabels c tok, ∃ k, c.labelCounter < k ∧
        k ≤ c.labelCounter + (stepLabels c tok).length ∧ IsLabel k L) ∧
      (∀ l ∈ ls, l.data.head? = some ' ' ∨ ∃ L ∈ stepLabels c tok, l = L ++ ":") ∧
      (∀ L ∈ stepLabels c tok, ls.count (L ++ ":") = 1) := by
  by_cases hs : tok = ".s"
  · subst hs
    have hl1 : IsLabel (c.labelCounter + 1) ("print_stack" ++ "_" ++ fmtNat (c.labelCounter + 1)) :=
      Or.inl rfl
    have hl2 : IsLabel (c.labelCounter + 1 + 1)
        ("end_stack" ++ "_" ++ fmtNat (c.labelCounter + 1 + 1)) := Or.inr rfl
    have hne : "print_stack" ++ "_" ++ fmtNat (c.labelCounter + 1) ≠
        "end_stack" ++ "_" ++ fmtNat (c.labelCounter + 1 + 1) := by
      intro h
      have := isLabel_unique _ _ _ hl1 (h ▸ hl2)
      omega
    have hne2 : ("print_stack" ++ "_" ++ fmtNat (c.labelCounter + 1)) ++ ":" ≠
        ("end_stack" ++ "_" ++ fmtNat (c.labelCounter + 1 + 1)) ++ ":" :=
      fun h => hne (label_line_inj _ _ h)
    have hA : ∀ l ∈ ["    push stack_msg", "    call printf", "    add esp, 4",
        "    mov ecx, esp"], l.data.head? = some ' ' := by simp
    have hB : ∀ l ∈ ["    cmp ecx, [stack_start]",
        "    jae " ++ ("end_stack" ++ "_" ++ fmtNat (c.labelCounter + 1 + 1)),
        "    push ecx", "    push dword [ecx]", "    push fmt_str", "    call printf",
        "    add esp, 8", "    pop ecx", "    add ecx, 4",
        "    jmp " ++ ("print_stack" ++ "_" ++ fmtNat (c.labelCounter + 1))],
        l.data.head? = some ' ' := by simp [String.data_append]
    have hC : ∀ l ∈ ["    push stack_newline", "    call printf", "    add esp, 4"],
        l.data.head? = some ' ' := by simp
    refine ⟨["    push stack_msg", "    call printf", "    add esp, 4", "    mov ecx, esp"]
        ++ (("print_stack" ++ "_" ++ fmtNat (c.labelCounter + 1)) ++ ":")
        :: (["    cmp ecx, [stack_start]",
        "    jae " ++ ("end_stack" ++ "_" ++ fmtNat (c.labelCounter + 1 + 1)),
        "    push ecx", "    push dword [ecx]", "    push fmt_str", "    call printf",
        "    add esp, 8", "    pop ecx", "    add ecx, 4",
        "    jmp " ++ ("print_stack" ++ "_" ++ fmtNat (c.labelCounter + 1))]
        ++ (("end_stack" ++ "_" ++ fmtNat (c.labelCounter + 1 + 1)) ++ ":")
        :: ["    push stack_newline", "    call printf", "    add esp, 4"]),
      rfl, rfl, ?_, ?_, ?_, ?_⟩
    · rw [stepLabels_dotS]
      exact List.nodup_cons.mpr
        ⟨fun h => hne (List.mem_singleton.mp h), List.nodup_singleton _⟩
    · rw [stepLabels_dotS]
      intro L hL
      simp only [List.mem_cons, List.mem_singleton, List.not_mem_nil, or_false] at hL
      rcases hL with hL | hL
      · exact ⟨c.labelCounter + 1, by omega, by simp, hL ▸ hl1⟩
      · exact ⟨c.labelCounter + 1 + 1, by omega, by simp, hL ▸ hl2⟩
    · rw [stepLabels_dotS]
      intro l hl
      rcases List.mem_append.mp hl with hl | hl
      · exact Or.inl (hA l hl)
      · rcases List.mem_cons.mp hl with hl | hl
        · exact Or.inr ⟨_, List.mem_cons_self _ _, hl⟩
        · rcases List.mem_append.mp hl with hl | hl
          · exact Or.inl (hB l hl)
          · rcases List.mem_cons.mp hl with hl | hl
            · exact Or.inr ⟨_, List.mem_cons_of_mem _ (List.mem_cons_self _ _), hl⟩
            · exact Or.inl (hC l hl)
    · rw [stepLabels_dotS]
      intro L hL
      simp only [List.mem_cons, List.mem_singleton, List.not_mem_nil, or_false] at hL
      rcases hL with hL | hL
      · subst hL
        apply count_middle
        · exact count_of_indented _ _ hA (isLabel_head _ _ hl1).1
        · intro hmem
          rcases List.mem_append.mp hmem with hmem | hmem
          · exact (isLabel_head _ _ hl1).1 (hB _ hmem)
          · rcases List.mem_cons.mp hmem with hmem | hmem
            · exact hne2 hmem
            · exact (isLabel_head _ _ hl1).1 (hC _ hmem)
      · subst hL
        exact count_middle2 _ _ _ _ _
          (count_of_indented _ _ hA (isLabel_head _ _ hl2).1) (fun h => hne2 h.symm)
          (count_of_indented _ _ hB (isLabel_head _ _ hl2).1)
          (count_of_indented _ _ hC (isLabel_head _ _ hl2).1)
  · rw [stepLabels_other c tok hs]
    have hgoal : ∃ ls, (body c tokens i tok).c.output = c.output ++ ls ∧
        (body c tokens i tok).c.labelCounter = c.labelCounter ∧
        ∀ l ∈ ls, l.data.head? = some ' ' := by
      rcases body_cases c tokens i tok with
        ⟨fn, hw, hv, _, hb⟩ | ⟨_, hb⟩ | ⟨n, _, _, hb⟩ | ⟨_, _, _, hb⟩ | ⟨_, _, _, hb⟩
      · have hind := indented_of_words tok fn hw hs hv
        obtain ⟨ls, h1, h2⟩ := hind.out c tokens i
        rw [hb]
        exact ⟨ls, h1, hind.counter c tokens i, h2⟩
      · rw [hb]
        refine ⟨[], ?_, ?_, by simp⟩
        · rcases compileVariable_cases c tokens i with
            ⟨_, hc⟩ | ⟨_, _, _, hc⟩ | ⟨_, _, _, hc⟩ <;> rw [hc] <;> simp
        · rcases compileVariable_cases c tokens i with
            ⟨_, hc⟩ | ⟨_, _, _, hc⟩ | ⟨_, _, _, hc⟩ <;> rw [hc]
      · rw [hb]
        exact ⟨["    push " ++ fmtInt n], rfl, rfl, by simp [String.data_append]⟩
      · rw [hb]
        exact ⟨["    push " ++ tok], rfl, rfl, by simp [String.data_append]⟩
      · rw [hb]
        exact ⟨[], by simp, rfl, by simp⟩
    obtain ⟨ls, h1, h2, h3⟩ := hgoal
    exact ⟨ls, h1, by simpa using h2, List.nodup_nil, by simp,
      fun l hl => Or.inl (h3 l hl), by simp⟩

theorem labelsFrom_exit (fuel : Nat) (c : Compiler) (tokens : List String) (i : Nat)
    (h : ¬ i < tokens.length) : labelsFrom (fuel + 1) c tokens i = [] := by
  rw [labelsFrom, dif_neg h]

theorem labelsFrom_error (fuel : Nat) (c : Compiler) (tokens : List String) (i : Nat)
    (h : i < tokens.length) (e : String) (he : (body c tokens i tokens[i]).err = some e) :
    labelsFrom (fuel + 1) c tokens i = [] := by
  rw [labelsFrom, dif_pos h]
  simp only [he]

theorem labelsFrom_continue (fuel : Nat) (c : Compiler) (tokens : List String) (i : Nat)
    (h : i < tokens.length) (he : (body c tokens i tokens[i]).err = none) :
    labelsFrom (fuel + 1) c tokens i =
      stepLabels c tokens[i] ++
        labelsFrom fuel (body c tokens i tokens[i]).c tokens (body c tokens i tokens[i]).i := by
  rw [labelsFrom, dif_pos h]
  simp only [he]

/-- A step that returns an error leaves the compiler as it was. -/
theorem body_error_state (c : Compiler) (tokens : List String) (i : Nat) (tok e : String)
    (he : (body c tokens i tok).err = some e) : (body c tokens i tok).c = c := by
  rcases body_cases c tokens i tok with
    ⟨fn, _, _, hf, hb⟩ | ⟨_, hb⟩ | ⟨n, _, _, hb⟩ | ⟨_, _, _, hb⟩ | ⟨_, _, _, hb⟩
  · rw [hb, hf.err] at he; cases he
  · rw [hb] at he ⊢
    rcases compileVariable_cases c tokens i with ⟨_, hc⟩ | ⟨_, _, _, hc⟩ | ⟨_, _, _, hc⟩
    · rw [hc]
    · rw [hc]
    · rw [hc] at he; cases he
  · rw [hb] at he; cases he
  · rw [hb] at he; cases he
  · rw [hb]

/-- The log and the label counter at the exit of the loop, in terms of the
labels allocated on the way. -/
theorem scan_labels (tokens : List String) :
    ∀ (fuel : Nat) (c : Compiler) (i : Nat) (r : Compiler × Option String),
      scan fuel c tokens i = some r →
      ∃ em, r.1.output = c.output ++ em ∧
        r.1.labelCounter = c.labelCounter + (labelsFrom fuel c tokens i).length ∧
        (labelsFrom fuel c tokens i).Nodup ∧
        (∀ L ∈ labelsFrom fuel c tokens i, ∃ k, c.labelCounter < k ∧
          k ≤ r.1.labelCounter ∧ IsLabel k L) ∧
        (∀ l ∈ em, l.data.head? = some ' ' ∨ ∃ L ∈ labelsFrom fuel c tokens i, l = L ++ ":") ∧
        (∀ L ∈ labelsFrom fuel c tokens i, em.count (L ++ ":") = 1) := by
  intro fuel
  induction fuel with
  | zero => intro c i r h; simp [scan] at h
  | succ f ih =>
    intro c i r h
    by_cases hi : i < tokens.length
    · cases he : (body c tokens i tokens[i]).err with
      | some e =>
        rw [scan_error f c tokens i hi e he] at h
        cases h
        rw [labelsFrom_error f c tokens i hi e he]
        refine ⟨[], ?_, ?_, List.nodup_nil, by simp, by simp, by simp⟩
        · simp [body_error_state c tokens i _ e he]
        · simp [body_error_state c tokens i _ e he]
      | none =>
        rw [scan_continue f c tokens i hi he] at h
        obtain ⟨em1, ho1, hc1, hn1, hk1, hl1, hcnt1⟩ := ih _ _ r h
        obtain ⟨ls, ho0, hc0, hn0, hk0, hl0, hcnt0⟩ := body_step_labels c tokens i tokens[i]
        rw [labelsFrom_continue f c tokens i hi he]
        have hdisj : ∀ L, L ∈ stepLabels c tokens[i] →
            L ∈ labelsFrom f (body c tokens i tokens[i]).c tokens
              (body c tokens i tokens[i]).i → False := by
          intro L h0 h1
          obtain ⟨k0, _, hle, hk⟩ := hk0 L h0
          obtain ⟨k1, hlt, _, hk'⟩ := hk1 L h1
          have := isLabel_unique _ _ _ hk hk'
          omega
        have hzero1 : ∀ L ∈ stepLabels c tokens[i], em1.count (L ++ ":") = 0 := by
          intro L hL
          apply List.count_eq_zero.mpr
          intro hmem
          obtain ⟨k0, _, _, hk⟩ := hk0 L hL
          rcases hl1 _ hmem with hh | ⟨L2, hL2, heq⟩
          · exact (isLabel_head _ _ hk).1 hh
          · exact hdisj L hL (label_line_inj _ _ heq ▸ hL2)
        have hzero0 : ∀ L ∈ labelsFrom f (body c tokens i tokens[i]).c tokens
            (body c tokens i tokens[i]).i, ls.count (L ++ ":") = 0 := by
          intro L hL
          apply List.count_eq_zero.mpr
          intro hmem
          obtain ⟨k1, _, _, hk⟩ := hk1 L hL
          rcases hl0 _ hmem with hh | ⟨L2, hL2, heq⟩
          · exact (isLabel_head _ _ hk).1 hh
          · exact hdisj L (label_line_inj _ _ heq ▸ hL2) hL
        refine ⟨ls ++ em1, ?_, ?_, ?_, ?_, ?_, ?_⟩
        · rw [ho1, ho0, List.append_assoc]
        · rw [hc1, hc0, List.length_append]; omega
        · exact List.nodup_append.mpr ⟨hn0, hn1, fun L h0 h1 => hdisj L h0 h1⟩
        · intro L hL
          rcases List.mem_append.mp hL with hL | hL
          · obtain ⟨k, h1, h2, h3⟩ := hk0 L hL
            exact ⟨k, h1, by rw [hc1, hc0]; omega, h3⟩
          · obtain ⟨k, h1, h2, h3⟩ := hk1 L hL
            exact ⟨k, by rw [hc0] at h1; omega, h2, h3⟩
        · intro l hl
          rcases List.mem_append.mp hl with hl | hl
          · rcases hl0 l hl with hh | ⟨L, hL, heq⟩
            · exact Or.inl hh
            · exact Or.inr ⟨L, List.mem_append_left _ hL, heq⟩
          · rcases hl1 l hl with hh | ⟨L, hL, heq⟩
            · exact Or.inl hh
            · exact Or.inr ⟨L, List.mem_append_right _ hL, heq⟩
        · intro L hL
          rw [List.count_append]
          rcases List.mem_append.mp hL with hL | hL
          · rw [hcnt0 L hL, hzero1 L hL]
          · rw [hcnt1 L hL, hzero0 L hL]
    · rw [scan_exit f c tokens i hi] at h
      cases h
      rw [labelsFrom_exit f c tokens i hi]
      exact ⟨[], by simp, by simp, List.nodup_nil, by simp, by simp, by simp⟩

/-! ## First error -/

theorem compileVariable_append (c : Compiler) (ts more : List String) (i : Nat)
    (h : i + 1 < ts.length) :
    compileVariable c (ts ++ more) i = compileVariable c ts i := by
  have h1 : ¬ (i + 1 ≥ (ts ++ more).length) := by rw [List.length_append]; omega
  have h2 : ¬ (i + 1 ≥ ts.length) := by omega
  have h3 : (ts ++ more).getD (i + 1) "" = ts.getD (i + 1) "" := by
    simp [List.getD, List.getElem?_append_left h]
  unfold compileVariable
  rw [if_neg h1, if_neg h2, h3]

/-- The three error texts are pairwise different: an unknown-word error and a
duplicate error are never the missing-name error. -/
theorem error_kinds_differ (e : String)
    (h : (∃ t, e = "unknown word or invalid number: " ++ t) ∨
         (∃ n, e = "variable '" ++ n ++ "' already exists")) :
    e ≠ "missing variable name after 'variable'" := by
  intro he
  rcases h with ⟨t, ht⟩ | ⟨n, hn⟩
  · rw [he] at ht
    have := congrArg String.data ht
    simp [String.data_append] at this
  · rw [he] at hn
    have := congrArg String.data hn
    simp [String.data_append] at this

/-- A step that does not return the missing-name error is the same step on a
longer token list. -/
theorem body_append (c : Compiler) (ts more : List String) (i : Nat) (tok : String)
    (h : (body c ts i tok).err ≠ some "missing variable name after 'variable'") :
    body c (ts ++ more) i tok = body c ts i tok := by
  cases hw : words tok with
  | none => simp only [body, hw]
  | some fn =>
    have hfn : fn c (ts ++ more) i = fn c ts i := by
      by_cases hv : tok = "variable"
      · subst hv
        rw [words_variable] at hw
        cases hw
        rcases compileVariable_cases c ts i with ⟨_, hc⟩ | ⟨name, hn, _, _⟩ | ⟨name, hn, _, _⟩
        · rw [body_variable, hc] at h
          exact absurd rfl h
        · obtain ⟨hlt, _⟩ := getElem_of_getElem? hn
          exact compileVariable_append c ts more i hlt
        · obtain ⟨hlt, _⟩ := getElem_of_getElem? hn
          exact compileVariable_append c ts more i hlt
      · exact words_ignore_args tok fn hw hv c _ _ i
    simp only [body, hw, hfn]

/-- A run that ends in an error other than the missing-name error ends in the
same error, in the same state, on every extension of the token list. -/
theorem scan_append (ts more : List String) :
    ∀ (fuel : Nat) (c : Compiler) (i : Nat) (cf : Compiler) (e : String),
      scan fuel c ts i = some (cf, some e) →
      e ≠ "missing variable name after 'variable'" →
      scan fuel c (ts ++ more) i = some (cf, some e) := by
  intro fuel
  induction fuel with
  | zero => intro c i cf e h; simp [scan] at h
  | succ f ih =>
    intro c i cf e h hk
    by_cases hi : i < ts.length
    · have hi2 : i < (ts ++ more).length := by rw [List.length_append]; omega
      have htok : (ts ++ more)[i] = ts[i] := List.getElem_append_left hi
      cases he : (body c ts i ts[i]).err with
      | some e2 =>
        rw [scan_error f c ts i hi e2 he] at h
        have he2 : e2 = e := by
          have := Option.some.inj h
          simp at this
          exact this.2
        have hb := body_append c ts more i ts[i] (by rw [he, he2]; exact fun hx => hk (Option.some.inj hx))
        rw [scan_error f c (ts ++ more) i hi2 e2 (by rw [htok, hb, he]), htok, hb]
        exact h
      | none =>
        rw [scan_continue f c ts i hi he] at h
        have hb := body_append c ts more i ts[i] (by rw [he]; exact fun hx => Option.noConfusion hx)
        rw [scan_continue f c (ts ++ more) i hi2 (by rw [htok, hb, he]), htok, hb]
        exact ih _ _ cf e h hk
    · rw [scan_exit f c ts i hi] at h
      simp at h

/-- A failed compilation failed with one of the three errors of the source. -/
theorem compileTokens_error_kinds (ts : List String) (e : String)
    (h : compileTokens ts = some (.error e)) :
    e = "missing variable name after 'variable'" ∨
    (∃ t, e = "unknown word or invalid number: " ++ t) ∨
    (∃ n, e = "variable '" ++ n ++ "' already exists") := by
  have hstep : ∀ c i tok e2, (body c ts i tok).err = some e2 →
      e2 = "missing variable name after 'variable'" ∨
      (∃ t, e2 = "unknown word or invalid number: " ++ t) ∨
      (∃ n, e2 = "variable '" ++ n ++ "' already exists") := by
    intro c i tok e2 he
    rcases body_cases c ts i tok with
      ⟨fn, _, _, hf, hb⟩ | ⟨_, hb⟩ | ⟨n, _, _, hb⟩ | ⟨_, _, _, hb⟩ | ⟨_, _, _, hb⟩
    · rw [hb, hf.err] at he; cases he
    · rw [hb] at he
      rcases compileVariable_cases c ts i with ⟨_, hc⟩ | ⟨name, _, _, hc⟩ | ⟨name, _, _, hc⟩
      · rw [hc] at he; exact Or.inl (Option.some.inj he).symm
      · rw [hc] at he; exact Or.inr (Or.inr ⟨name, (Option.some.inj he).symm⟩)
      · rw [hc] at he; cases he
    · rw [hb] at he; cases he
    · rw [hb] at he; cases he
    · rw [hb] at he; exact Or.inr (Or.inl ⟨tok, (Option.some.inj he).symm⟩)
  have hscan : ∀ (fuel : Nat) (c : Compiler) (i : Nat) (cf : Compiler) (e2 : String),
      scan fuel c ts i = some (cf, some e2) →
      e2 = "missing variable name after 'variable'" ∨
      (∃ t, e2 = "unknown word or invalid number: " ++ t) ∨
      (∃ n, e2 = "variable '" ++ n ++ "' already exists") := by
    intro fuel
    induction fuel with
    | zero => intro c i cf e2 h; simp [scan] at h
    | succ f ih =>
      intro c i cf e2 h
      by_cases hi : i < ts.length
      · cases he : (body c ts i ts[i]).err with
        | some e3 =>
          rw [scan_error f c ts i hi e3 he] at h
          have : e3 = e2 := by
            have := Option.some.inj h
            simp at this
            exact this.2
          rw [← this]
          exact hstep c i _ e3 he
        | none =>
          rw [scan_continue f c ts i hi he] at h
          exact ih _ _ cf e2 h
      · rw [scan_exit f c ts i hi] at h
        simp at h
  unfold compileTokens at h
  cases hs : scan (ts.length + 1) NewCompiler ts 0 with
  | none => rw [hs] at h; simp at h
  | some r =>
    rcases r with ⟨cf, _ | e2⟩
    · rw [hs] at h; simp at h
    · rw [hs] at h
      simp at h
      rw [← h]
      exact hscan _ _ _ cf e2 hs

/-- C17: first-error abort.  When the compilation of `ts` fails with an
unknown-word error or a duplicate-declaration error `e`, the compilation of
`ts ++ more` fails with the same error `e` for every continuation `more`, the
loop stopping in the same compiler state: nothing after the failing token is
processed, and no text is written. -/
theorem first_error_aborts (ts more : List String) (e : String)
    (h : compileTokens ts = some (.error e))
    (hk : (∃ t, e = "unknown word or invalid number: " ++ t) ∨
          (∃ n, e = "variable '" ++ n ++ "' already exists")) :
    compileTokens (ts ++ more) = some (.error e) ∧
    (∃ cf, scan (ts.length + 1) NewCompiler ts 0 = some (cf, some e) ∧
      scan ((ts ++ more).length + 1) NewCompiler (ts ++ more) 0 = some (cf, some e)) := by
  have hne := error_kinds_differ e hk
  have hs : ∃ cf, scan (ts.length + 1) NewCompiler ts 0 = some (cf, some e) := by
    unfold compileTokens at h
    cases hs : scan (ts.length + 1) NewCompiler ts 0 with
    | none => rw [hs] at h; simp at h
    | some r =>
      rcases r with ⟨cf, _ | e2⟩
      · rw [hs] at h; simp at h
      · rw [hs] at h
        simp at h
        exact ⟨cf, by rw [h]⟩
  obtain ⟨cf, hcf⟩ := hs
  have h2 := scan_append ts more _ _ _ cf e hcf hne
  have h3 := scan_fuel_mono (ts ++ more) _ _ _ _ h2 more.length
  have h4 : scan ((ts ++ more).length + 1) NewCompiler (ts ++ more) 0 = some (cf, some e) := by
    rw [← h3]; congr 1; rw [List.length_append]; omega
  refine ⟨?_, cf, hcf, h4⟩
  unfold compileTokens
  rw [h4]

/-- C17 at the program `1 foo` continued by `variable x`. -/
theorem first_error_aborts_witness :
    compileTokens ["1", "foo"] = some (.error "unknown word or invalid number: foo") ∧
    compileTokens (["1", "foo"] ++ ["variable", "x"]) =
      some (.error "unknown word or invalid number: foo") :=
  ⟨rfl, (first_error_aborts ["1", "foo"] ["variable", "x"] _ rfl (Or.inl ⟨"foo", rfl⟩)).1⟩

/-! ## Append-only log -/

/-- The log at the start of the loop is a prefix of the log at its exit. -/
theorem scan_output_prefix (tokens : List String) (fuel : Nat) (c : Compiler) (i : Nat)
    (r : Compiler × Option String) (h : scan fuel c tokens i = some r) :
    c.output <+: r.1.output := by
  obtain ⟨_, ls, hout, _⟩ := scan_shape tokens fuel c i r h
  exact ⟨ls, hout.symm⟩

/-- C18: the instruction log is append-only.  For every compiler state, every
token list, cursor and token, the log before the loop body is a prefix of the
log after it; so it is for each of the sixteen vocabulary handlers, for the
literal push and for the cell-reference push; `variable` leaves the log as it
is; and the log of the fresh compiler, which is empty, and the log of every
state the loop passes through are prefixes of the log at the exit of the
loop. -/
theorem log_is_append_only (c : Compiler) (tokens : List String) (i : Nat) (tok : String)
    (n : Int) (fuel : Nat) :
    c.output <+: (body c tokens i tok).c.output ∧
    c.output <+: (compileAdd c tokens i).c.output ∧
    c.output <+: (compileSub c tokens i).c.output ∧
    c.output <+: (compileMul c tokens i).c.output ∧
    c.output <+: (compileMod c tokens i).c.output ∧
    c.output <+: (compileNeg c tokens i).c.output ∧
    c.output <+: (compileDup c tokens i).c.output ∧
    c.output <+: (compileDrop c tokens i).c.output ∧
    c.output <+: (compileSwap c tokens i).c.output ∧
    c.output <+: (compileOver c tokens i).c.output ∧
    c.output <+: (compileTuck c tokens i).c.output ∧
    c.output <+: (compileNip c tokens i).c.output ∧
    c.output <+: (compileDot c tokens i).c.output ∧
    c.output <+: (compileDotS c tokens i).c.output ∧
    c.output <+: (compileStore c tokens i).c.output ∧
    c.output <+: (compileFetch c tokens i).c.output ∧
    (compileVariable c tokens i).c.output = c.output ∧
    (compileLiteral c n).output = c.output ++ ["    push " ++ fmtInt n] ∧
    (compileVariableRef c tok).output = c.output ++ ["    push " ++ tok] ∧
    (∃ r, scan (tokens.length + 1 + fuel) c tokens i = some r ∧ c.output <+: r.1.output) := by
  have hpre : ∀ fn, EmitsOnly fn → c.output <+: (fn c tokens i).c.output := by
    intro fn hf
    obtain ⟨ls, h1, _⟩ := hf.out c tokens i
    exact ⟨ls, h1.symm⟩
  refine ⟨?_, hpre _ emitsOnly_compileAdd, hpre _ emitsOnly_compileSub,
    hpre _ emitsOnly_compileMul, hpre _ emitsOnly_compileMod, hpre _ emitsOnly_compileNeg,
    hpre _ emitsOnly_compileDup, hpre _ emitsOnly_compileDrop, hpre _ emitsOnly_compileSwap,
    hpre _ emitsOnly_compileOver, hpre _ emitsOnly_compileTuck, hpre _ emitsOnly_compileNip,
    hpre _ emitsOnly_compileDot, hpre _ emitsOnly_compileDotS, hpre _ emitsOnly_compileStore,
    hpre _ emitsOnly_compileFetch, ?_, rfl, rfl, ?_⟩
  · obtain ⟨ls, h1, _⟩ := body_output c tokens i tok
    exact ⟨ls, h1.symm⟩
  · rcases compileVariable_cases c tokens i with ⟨_, hc⟩ | ⟨_, _, _, hc⟩ | ⟨_, _, _, hc⟩ <;>
      rw [hc]
  · obtain ⟨r, hr⟩ := scan_terminates tokens (tokens.length + fuel) c i (by omega)
    have hr2 : scan (tokens.length + 1 + fuel) c tokens i = some r := by
      rw [← hr]; congr 1; omega
    exact ⟨r, hr2, scan_output_prefix tokens _ c i r hr2⟩

/-! ## References and declarations -/

theorem lookup_isSome_iff (l : List (String × Nat)) (n : String) :
    (l.lookup n).isSome = true ↔ n ∈ l.map Prod.fst := by
  induction l with
  | nil => simp
  | cons x l ih =>
    obtain ⟨k, v⟩ := x
    by_cases hk : n = k
    · subst hk; simp [List.lookup_cons]
    · have hb : (n == k) = false := by simpa using hk
      simp [List.lookup_cons, hb, ih, hk]

theorem hasVar_iff_mem (c : Compiler) (n : String) :
    c.hasVar n = true ↔ n ∈ c.vars.map Prod.fst :=
  lookup_isSome_iff c.vars n

/-- In every configuration the loop passes through, the bss segment is the two
fixed lines followed by the entry of each name of the symbol table, in
insertion order. -/
theorem reaches_bssSegment (tokens : List String) (c : Compiler) (i : Nat)
    (hr : Reaches tokens c i) :
    c.bssSegment = NewCompiler.bssSegment ++ (c.vars.map Prod.fst).map bssEntry := by
  induction hr with
  | start => rfl
  | step c i hi _ he ih =>
    rcases body_decl_cases c tokens i tokens[i] with
      ⟨hv, hb, _⟩ | ⟨name, _, _, _, _, hv, hb⟩
    · rw [hv, hb, ih]
    · rw [hv, hb, ih]
      simp [bssEntry]

/-- In every configuration the loop passes through, a name of the symbol table
got there by a processed declaration. -/
theorem reaches_declared (tokens : List String) (c : Compiler) (i : Nat)
    (hr : Reaches tokens c i) (t : String) (ht : c.hasVar t = true) : Declared t c := by
  induction hr with
  | start => simp [Compiler.hasVar, NewCompiler] at ht
  | step c i hi _ he ih =>
    rcases body_decl_cases c tokens i tokens[i] with
      ⟨hv, _, _⟩ | ⟨name, htok, hname, hnew, _, hv, _⟩
    · apply Declared.later
      apply ih
      unfold Compiler.hasVar at ht ⊢
      rw [hv] at ht
      exact ht
    · by_cases hold : c.hasVar t = true
      · exact Declared.later c tokens i _ (ih hold)
      · have hmem := (hasVar_iff_mem _ t).mp ht
        rw [hv] at hmem
        simp only [List.map_append, List.map_cons, List.map_nil, List.mem_append,
          List.mem_singleton] at hmem
        rcases hmem with hmem | hmem
        · exact absurd ((hasVar_iff_mem c t).mpr hmem) hold
        · subst hmem
          have hb : body c tokens i tokens[i] = compileVariable c tokens i := by
            rw [htok, body_variable]
          rw [hb] at he ⊢
          exact Declared.decl c tokens i hname he

/-- The result of a successful compilation is the result of the loop from every
configuration it passes through. -/
theorem scan_from_reaches (tokens : List String) (c : Compiler) (i : Nat)
    (hr : Reaches tokens c i) (cf : Compiler)
    (h : scan (tokens.length + 1) NewCompiler tokens 0 = some (cf, none)) :
    scan (tokens.length + 1) c tokens i = some (cf, none) := by
  obtain ⟨r, hr2⟩ := scan_terminates tokens tokens.length c i (by omega)
  have h2 := scan_of_reaches tokens c i hr _ r hr2
  rw [h] at h2
  rw [hr2, ← Option.some.inj h2]

/-- C19: declared before referenced.  Whenever the loop of a compilation, in a
configuration it passes through, handles a token `t` that is neither a
vocabulary word nor an integer and returns no error, the step is the cell
reference: it appends the line `    push t`; a declaration `variable t` has been
processed before, `t` is in the symbol table and its line `t: resd 1` is in the
bss segment; and when the compilation succeeds that line is in the bss segment
of the text written and `t` is among the processed declarations.  A reference
before its declaration fails: `x variable x` gives the unknown-word error for
`x`. -/
theorem reference_needs_declaration (tokens : List String) (c : Compiler) (i : Nat)
    (hr : Reaches tokens c i) (hi : i < tokens.length)
    (hw : words tokens[i] = none) (ha : strconv_Atoi tokens[i] = none)
    (he : (body c tokens i tokens[i]).err = none) :
    body c tokens i tokens[i] =
      { c := compileVariableRef c tokens[i], i := i + 1, err := none } ∧
    (body c tokens i tokens[i]).c.output = c.output ++ ["    push " ++ tokens[i]] ∧
    Declared tokens[i] c ∧
    tokens[i] ∈ c.vars.map Prod.fst ∧
    tokens[i] ++ ": resd 1" ∈ c.bssSegment ∧
    (∀ text, compileTokens tokens = some (.ok text) →
      ∃ cf, scan (tokens.length + 1) NewCompiler tokens 0 = some (cf, none) ∧
        text = writeAsm cf ∧ tokens[i] ++ ": resd 1" ∈ cf.bssSegment ∧
        tokens[i] ∈ declarations tokens) ∧
    compileTokens ["x", "variable", "x"] =
      some (.error "unknown word or invalid number: x") := by
  have hv : c.hasVar tokens[i] = true := by
    rcases body_cases c tokens i tokens[i] with
      ⟨fn, hfn, _, _, _⟩ | ⟨ht, _⟩ | ⟨n, _, hn, _⟩ | ⟨_, _, hv, _⟩ | ⟨_, _, _, hb⟩
    · rw [hw] at hfn; cases hfn
    · rw [ht] at hw; exact absurd hw words_variable_ne_none
    · rw [ha] at hn; cases hn
    · exact hv
    · rw [hb] at he; cases he
  have hb : body c tokens i tokens[i] =
      { c := compileVariableRef c tokens[i], i := i + 1, err := none } := by
    simp [body, hw, ha, hv]
  have hmem := (hasVar_iff_mem c _).mp hv
  have hbss : tokens[i] ++ ": resd 1" ∈ c.bssSegment := by
    rw [reaches_bssSegment tokens c i hr]
    exact List.mem_append_right _ (List.mem_map_of_mem bssEntry hmem)
  refine ⟨hb, by rw [hb]; rfl, reaches_declared tokens c i hr _ hv, hmem, hbss, ?_, rfl⟩
  intro text htext
  obtain ⟨cf, hs, ht⟩ := compileTokens_ok tokens text htext
  have hs2 := scan_from_reaches tokens c i hr cf hs
  obtain ⟨hb1, hv1⟩ := scan_bssSegment tokens _ c i cf hs2
  obtain ⟨_, hv0⟩ := scan_bssSegment tokens _ _ _ cf hs
  refine ⟨cf, hs, ht, ?_, ?_⟩
  · rw [hb1]; exact List.mem_append_left _ hbss
  · have hm : tokens[i] ∈ cf.vars.map Prod.fst := by
      rw [hv1]; exact List.mem_append_left _ hmem
    rw [hv0] at hm
    simpa [NewCompiler, declarations] using hm

/-- C19 at the program `variable x x`. -/
theorem reference_needs_declaration_witness :
    Reaches ["variable", "x", "x"]
      { NewCompiler with
        vars := [("x", 2)],
        bssSegment := ["section .bss", "stack_start resd 1", "x: resd 1"] } 2 ∧
    (body { NewCompiler with
        vars := [("x", 2)],
        bssSegment := ["section .bss", "stack_start resd 1", "x: resd 1"] }
      ["variable", "x", "x"] 2 "x").c.output = ["    push x"] ∧
    Declared "x" { NewCompiler with
        vars := [("x", 2)],
        bssSegment := ["section .bss", "stack_start resd 1", "x: resd 1"] } ∧
    compileTokens ["x", "variable", "x"] =
      some (.error "unknown word or invalid number: x") := by
  have hr : Reaches ["variable", "x", "x"]
      { NewCompiler with
        vars := [("x", 2)],
        bssSegment := ["section .bss", "stack_start resd 1", "x: resd 1"] } 2 :=
    Reaches.step NewCompiler 0 (by decide) Reaches.start rfl
  have h := reference_needs_declaration ["variable", "x", "x"] _ 2 hr (by decide) rfl rfl rfl
  exact ⟨hr, h.2.1, h.2.2.1, h.2.2.2.2.2.2⟩

/-! ## Defined names -/

/-- C13: label uniqueness.  For every program the labels allocated during its
compilation are pairwise distinct; the loop ends, with or without error, in a
state whose counter is the number of labels allocated, every allocated label is
`print_stack_k` or `end_stack_k` for a `k` from 1 to that counter, and its
definition line `label:` occurs exactly once in the instruction log.  A step at
`.s` allocates exactly two labels and adds 2 to the counter; a step at any
other token allocates none and leaves the counter.  The program `.s .s`
allocates `print_stack_1`, `end_stack_2`, `print_stack_3`, `end_stack_4`. -/
theorem labels_are_unique (tokens : List String) :
    (labels tokens).Nodup ∧
    (∃ cf e, scan (tokens.length + 1) NewCompiler tokens 0 = some (cf, e) ∧
      cf.labelCounter = (labels tokens).length ∧
      (∀ L ∈ labels tokens, cf.output.count (L ++ ":") = 1) ∧
      (∀ L ∈ labels tokens, ∃ k, 0 < k ∧ k ≤ cf.labelCounter ∧ IsLabel k L)) ∧
    (∀ (c : Compiler) (i : Nat),
      stepLabels c ".s" =
        [ "print_stack" ++ "_" ++ fmtNat (c.labelCounter + 1),
          "end_stack" ++ "_" ++ fmtNat (c.labelCounter + 2) ] ∧
      (body c tokens i ".s").c.labelCounter = c.labelCounter + 2) ∧
    (∀ (c : Compiler) (i : Nat) (tok : String), tok ≠ ".s" →
      stepLabels c tok = [] ∧ (body c tokens i tok).c.labelCounter = c.labelCounter) ∧
    labels [".s", ".s"] = ["print_stack_1", "end_stack_2", "print_stack_3", "end_stack_4"] := by
  obtain ⟨r, hr⟩ := scan_terminates tokens tokens.length NewCompiler 0 (by omega)
  obtain ⟨em, ho, hc, hn, hk, _, hcnt⟩ := scan_labels tokens _ _ _ r hr
  refine ⟨hn, ⟨r.1, r.2, hr, ?_, ?_, ?_⟩, fun c i => ⟨rfl, rfl⟩, ?_, rfl⟩
  · rw [hc]; simp [NewCompiler, labels]
  · intro L hL
    rw [ho]
    simpa [NewCompiler] using hcnt L hL
  · intro L hL
    obtain ⟨k, h1, h2, h3⟩ := hk L hL
    exact ⟨k, by omega, h2, h3⟩
  · intro c i tok htok
    obtain ⟨ls, _, h2, _⟩ := body_step_labels c tokens i tok
    rw [stepLabels_other c tok htok] at h2
    exact ⟨stepLabels_other c tok htok, by simpa using h2⟩

/-- The names of the symbol table stay pairwise distinct. -/
theorem scan_vars_nodup (tokens : List String) (fuel : Nat) (c : Compiler) (i : Nat)
    (r : Compiler × Option String) (hc : (c.vars.map Prod.fst).Nodup)
    (h : scan fuel c tokens i = some r) : (r.1.vars.map Prod.fst).Nodup := by
  refine scan_invariant (fun c2 => (c2.vars.map Prod.fst).Nodup) tokens ?_ fuel c i r hc h
  intro c1 j hj hnd
  rcases body_decl_cases c1 tokens j tokens[j] with
    ⟨hv, _, _⟩ | ⟨name, _, _, hnew, _, hv, _⟩
  · show ((body c1 tokens j tokens[j]).c.vars.map Prod.fst).Nodup
    rw [hv]; exact hnd
  · show ((body c1 tokens j tokens[j]).c.vars.map Prod.fst).Nodup
    rw [hv, List.map_append]
    refine List.nodup_append.mpr ⟨hnd, by simp, ?_⟩
    intro x hx hx2
    simp only [List.map_cons, List.map_nil, List.mem_singleton] at hx2
    subst hx2
    have := (hasVar_iff_mem c1 _).mpr hx
    rw [hnew] at this
    cases this

theorem isLabel_not_fixed (k : Nat) (L : String) (h : IsLabel k L) : L ∉ fixedNames := by
  intro hmem
  simp only [fixedNames, List.mem_cons, List.mem_singleton, List.not_mem_nil, or_false] at hmem
  rcases h with h | h <;> subst h <;>
    rcases hmem with hm | hm | hm | hm | hm | hm <;>
    · have h2 := congrArg String.data hm
      simp [String.data_append] at h2

/-- C20, amended: in every successful compilation the fixed names are pairwise
distinct, the generated labels are pairwise distinct, the declared cell names
are pairwise distinct, and no generated label is a fixed name; hence all
defined names are pairwise distinct whenever no declared cell bears a fixed
name or the name of a generated label, which the compiler does not check.
Every generated label has its definition line in the instruction log and
every declared cell its line in the bss segment of the text written. -/
theorem defined_names_distinct (tokens : List String) (text : String)
    (h : compileTokens tokens = some (.ok text)) :
    fixedNames.Nodup ∧ (labels tokens).Nodup ∧ (declarations tokens).Nodup ∧
    (∀ L ∈ labels tokens, L ∉ fixedNames) ∧
    ((∀ n ∈ declarations tokens, n ∉ fixedNames ∧ n ∉ labels tokens) →
      (definedNames tokens).Nodup) ∧
    (∃ cf, scan (tokens.length + 1) NewCompiler tokens 0 = some (cf, none) ∧
      text = writeAsm cf ∧
      (∀ L ∈ labels tokens, L ++ ":" ∈ cf.output) ∧
      (∀ n ∈ declarations tokens, n ++ ": resd 1" ∈ cf.bssSegment)) := by
  obtain ⟨cf, hs, ht⟩ := compileTokens_ok tokens text h
  obtain ⟨em, ho, _, hn, hk, _, hcnt⟩ := scan_labels tokens _ _ _ _ hs
  obtain ⟨hbss, hvars⟩ := scan_bssSegment tokens _ _ _ cf hs
  have hfix : fixedNames.Nodup := by decide
  have hdecl : (declarations tokens).Nodup := by
    have h1 := scan_vars_nodup tokens _ NewCompiler 0 _ (by simp [NewCompiler]) hs
    rw [show ((cf, (none : Option String)).1) = cf from rfl, hvars] at h1
    simpa [NewCompiler, declarations] using h1
  have hlf : ∀ L ∈ labels tokens, L ∉ fixedNames := by
    intro L hL
    obtain ⟨k, _, _, hk2⟩ := hk L hL
    exact isLabel_not_fixed k L hk2
  refine ⟨hfix, hn, hdecl, hlf, ?_, cf, hs, ht, ?_, ?_⟩
  · intro hd
    unfold definedNames
    refine List.nodup_append.mpr ⟨List.nodup_append.mpr ⟨hfix, hn, ?_⟩, hdecl, ?_⟩
    · intro x hx hx2
      exact hlf x hx2 hx
    · intro x hx hx2
      rcases List.mem_append.mp hx with hx | hx
      · exact (hd x hx2).1 hx
      · exact (hd x hx2).2 hx
  · intro L hL
    have h1 := hcnt L hL
    have h2 : (L ++ ":") ∈ em := by
      apply List.count_pos_iff.mp
      rw [h1]; exact Nat.one_pos
    show L ++ ":" ∈ cf.output
    rw [show cf.output = NewCompiler.output ++ em from ho]
    exact List.mem_append_right _ h2
  · intro n hn2
    rw [hbss]
    exact List.mem_append_right _ (List.mem_map_of_mem bssEntry hn2)

/-- C20, amended, at the program `variable x .s`. -/
theorem defined_names_distinct_witness :
    compileTokens ["variable", "x", ".s"] =
      some (.ok (writeAsm (compileDotS (compileVariable NewCompiler ["variable", "x", ".s"] 0).c
        ["variable", "x", ".s"] 2).c)) ∧
    definedNames ["variable", "x", ".s"] =
      ["main", "fmt_str", "stack_msg", "stack_newline", "empty_stack_msg", "stack_start",
        "print_stack_1", "end_stack_2", "x"] ∧
    (definedNames ["variable", "x", ".s"]).Nodup := by
  have hc : compileTokens ["variable", "x", ".s"] =
      some (.ok (writeAsm (compileDotS (compileVariable NewCompiler ["variable", "x", ".s"] 0).c
        ["variable", "x", ".s"] 2).c)) := rfl
  refine ⟨hc, rfl, (defined_names_distinct ["variable", "x", ".s"] _ hc).2.2.2.2.1 ?_⟩
  decide

/-- C20 as stated fails: a declared cell can bear a fixed or a generated name.
`variable main` compiles, and the text written defines `main` twice, by the
header line `main:` and by the bss line `main: resd 1`; `variable print_stack_1
.s` compiles and defines `print_stack_1` as a cell and as the first label of
`.s`. -/
theorem cell_name_collides_with_fixed_name :
    compileTokens ["variable", "main"] =
      some (.ok (writeAsm { NewCompiler with
        vars := [("main", 2)],
        bssSegment := ["section .bss", "stack_start resd 1", "main: resd 1"] })) ∧
    "main:" ∈ asmLines { NewCompiler with
        vars := [("main", 2)],
        bssSegment := ["section .bss", "stack_start resd 1", "main: resd 1"] } ∧
    "main: resd 1" ∈ asmLines { NewCompiler with
        vars := [("main", 2)],
        bssSegment := ["section .bss", "stack_start resd 1", "main: resd 1"] } ∧
    definedNames ["variable", "main"] =
      ["main", "fmt_str", "stack_msg", "stack_newline", "empty_stack_msg", "stack_start",
        "main"] ∧
    ¬ (definedNames ["variable", "main"]).Nodup ∧
    definedNames ["variable", "print_stack_1", ".s"] =
      ["main", "fmt_str", "stack_msg", "stack_newline", "empty_stack_msg", "stack_start",
        "print_stack_1", "end_stack_2", "print_stack_1"] ∧
    ¬ (definedNames ["variable", "print_stack_1", ".s"]).Nodup ∧
    (∃ text, compileTokens ["variable", "print_stack_1", ".s"] = some (.ok text)) := by
  refine ⟨rfl, by decide, by decide, rfl, by decide, rfl, by decide, _, rfl⟩

/-! ## Arithmetic on the target machine -/

theorem dropPrefix_append (p s : List Char) : dropPrefix p (p ++ s) = some s := by
  induction p with
  | nil => cases s <;> rfl
  | cons a p ih => simp [dropPrefix, ih]

/-- The machine executes the line of a literal push by pushing the encoding of
the literal. -/
theorem execLine_push_literal (t : String) (n : Int) (m : Machine)
    (h : strconv_Atoi t = some n) :
    execLine ("    push " ++ t) m = .ok { m with stack := word n :: m.stack } := by
  have hd : dropPrefix "    push ".data ("    push " ++ t).data = some t.data := by
    rw [String.data_append]
    exact dropPrefix_append _ _
  unfold execLine
  rw [hd]
  simp only [h]

/-- A token the compiler reads as an integer is not a vocabulary word. -/
theorem words_none_of_atoi (t : String) (n : Int) (h : strconv_Atoi t = some n) :
    words t = none := by
  cases hw : words t with
  | none => rfl
  | some fn =>
    exfalso
    have hnone : strconv_Atoi t = none := by
      refine words_elim (fun _ => strconv_Atoi t = none) t fn hw
        ?_ ?_ ?_ ?_ ?_ ?_ ?_ ?_ ?_ ?_ ?_ ?_ ?_ ?_ ?_ ?_ <;>
      · intro e
        rw [e]
        rfl
    rw [hnone] at h
    cases h

theorem atoi_core_range (neg : Bool) (rest : List Char) (a : Int)
    (h : (match rest with
      | [] => none
      | d :: ds =>
        match digitsValue 0 (d :: ds) with
        | none => none
        | some v =>
          if neg then (if v ≤ 2 ^ 63 then some (-(v : Int)) else none)
          else (if v < 2 ^ 63 then some (v : Int) else none)) = some a) :
    -(2 : Int) ^ 63 ≤ a ∧ a < (2 : Int) ^ 63 := by
  cases rest with
  | nil => cases h
  | cons d ds =>
    cases hv : digitsValue 0 (d :: ds) with
    | none => simp only [hv] at h; cases h
    | some v =>
      simp only [hv] at h
      cases neg with
      | true =>
        simp only [if_true] at h
        split_ifs at h with h1
        cases h
        norm_num at h1 ⊢
        constructor <;> omega
      | false =>
        simp only [Bool.false_eq_true, if_false] at h
        split_ifs at h with h1
        cases h
        norm_num at h1 ⊢
        constructor <;> omega

/-- What `strconv.Atoi` returns is within the range of the 64-bit `int`. -/
theorem strconv_Atoi_range (t : String) (a : Int) (h : strconv_Atoi t = some a) :
    -(2 : Int) ^ 63 ≤ a ∧ a < (2 : Int) ^ 63 := by
  unfold strconv_Atoi at h
  split at h
  · exact atoi_core_range true _ a h
  · exact atoi_core_range false _ a h
  · exact atoi_core_range false _ a h

theorem body_literal (c : Compiler) (tokens : List String) (i : Nat) (t : String) (n : Int)
    (ha : strconv_Atoi t = some n) :
    body c tokens i t = { c := compileLiteral c n, i := i + 1, err := none } := by
  simp only [body, words_none_of_atoi t n ha, ha]

theorem word_cast (x : Int) : ((word x : Nat) : Int) = x % 4294967296 := by
  unfold word
  exact Int.toNat_of_nonneg (Int.emod_nonneg _ (by decide))

theorem word_add (a b : Int) : word ((word a : Int) + (word b : Int)) = word (a + b) := by
  rw [word_cast, word_cast]
  unfold word
  congr 1
  omega

theorem word_sub (a b : Int) : word ((word a : Int) - (word b : Int)) = word (a - b) := by
  rw [word_cast, word_cast]
  unfold word
  congr 1
  omega

theorem word_mul (a b : Int) : word ((word a : Int) * (word b : Int)) = word (a * b) := by
  rw [word_cast, word_cast]
  unfold word
  congr 1
  rw [← Int.mul_emod]

/-- The log of a program of two literals and one vocabulary word with an
emitting handler: the two pushes, then the lines of the handler. -/
theorem emittedLog_binary (ta tb : String) (a b : Int)
    (ha : strconv_Atoi ta = some a) (hb : strconv_Atoi tb = some b) :
    emittedLog [ta, tb, "+"] =
      ["    push " ++ fmtInt a, "    push " ++ fmtInt b, "    pop eax", "    add [esp], eax"] ∧
    emittedLog [ta, tb, "-"] =
      ["    push " ++ fmtInt a, "    push " ++ fmtInt b,
        "    pop ebx", "    pop eax", "    sub eax, ebx", "    push eax"] ∧
    emittedLog [ta, tb, "*"] =
      ["    push " ++ fmtInt a, "    push " ++ fmtInt b,
        "    pop eax", "    pop ebx", "    imul eax, ebx", "    push eax"] := by
  have key : ∀ (op : String) (fn : Compiler → List String → Nat → Ret) (ls : List String),
      (∀ c, body c [ta, tb, op] 2 op = fn c [ta, tb, op] 2) →
      (∀ c args i, fn c args i =
        { c := { c with output := c.output ++ ls }, i := i + 1, err := none }) →
      emittedLog [ta, tb, op] =
        ["    push " ++ fmtInt a, "    push " ++ fmtInt b] ++ ls := by
    intro op fn ls hbody hfn
    have h0 : body NewCompiler [ta, tb, op] 0 ([ta, tb, op][0]) =
        { c := compileLiteral NewCompiler a, i := 1, err := none } :=
      body_literal _ _ _ ta a ha
    have h1 : body (compileLiteral NewCompiler a) [ta, tb, op] 1 ([ta, tb, op][1]) =
        { c := compileLiteral (compileLiteral NewCompiler a) b, i := 2, err := none } :=
      body_literal _ _ _ tb b hb
    have h2 : body (compileLiteral (compileLiteral NewCompiler a) b) [ta, tb, op] 2
        ([ta, tb, op][2]) =
        { c := { (compileLiteral (compileLiteral NewCompiler a) b) with
                  output := (compileLiteral (compileLiteral NewCompiler a) b).output ++ ls },
          i := 3, err := none } := by
      show body _ [ta, tb, op] 2 op = _
      rw [hbody, hfn]
    have hs : scan ([ta, tb, op].length + 1) NewCompiler [ta, tb, op] 0 =
        some ({ (compileLiteral (compileLiteral NewCompiler a) b) with
                  output := (compileLiteral (compileLiteral NewCompiler a) b).output ++ ls },
              none) := by
      show scan (3 + 1) NewCompiler [ta, tb, op] 0 = _
      rw [scan_continue 3 _ _ 0 (by simp) (by rw [h0]), h0]
      rw [scan_continue 2 _ _ 1 (by simp) (by rw [h1]), h1]
      rw [scan_continue 1 _ _ 2 (by simp) (by rw [h2]), h2]
      exact scan_exit 0 _ _ 3 (by simp)
    unfold emittedLog
    rw [hs]
    simp [compileLiteral, NewCompiler]
  refine ⟨?_, ?_, ?_⟩
  · exact key "+" compileAdd _ (fun c => rfl) (fun c args i => rfl)
  · exact key "-" compileSub _ (fun c => rfl) (fun c args i => rfl)
  · exact key "*" compileMul _ (fun c => rfl) (fun c args i => rfl)

/-- C16: stack effect of the binary arithmetic words.  For tokens `ta`, `tb`
that `strconv.Atoi` reads as `a` and `b`, so for all 32-bit `a` and `b`, the
lines emitted for `ta tb +`, `ta tb -` and `ta tb *`, run on any machine state,
leave the stack as it was with one new top cell, which holds `a + b`, `a - b`
(second-from-top minus top) and `a * b` in 32-bit two's complement, that is
modulo `2^32`: the two literals are pushed, `b` last and hence on top, both are
popped and one result is pushed.  `3 4 +` leaves 7 on top. -/
theorem binary_arithmetic_effect (ta tb : String) (a b : Int) (m : Machine)
    (ha : strconv_Atoi ta = some a) (hb : strconv_Atoi tb = some b) :
    run (emittedLog [ta, tb, "+"]) m =
      .ok { m with eax := word b, stack := word (a + b) :: m.stack } ∧
    run (emittedLog [ta, tb, "-"]) m =
      .ok { m with eax := word (a - b), ebx := word b, stack := word (a - b) :: m.stack } ∧
    run (emittedLog [ta, tb, "*"]) m =
      .ok { m with eax := word (a * b), ebx := word a, stack := word (a * b) :: m.stack } ∧
    emittedLog [ta, tb, "+"] =
      ["    push " ++ fmtInt a, "    push " ++ fmtInt b, "    pop eax", "    add [esp], eax"] ∧
    run (emittedLog ["3", "4", "+"]) ⟨0, 0, 0, []⟩ = .ok ⟨4, 0, 0, [7]⟩ := by
  obtain ⟨hadd, hsub, hmul⟩ := emittedLog_binary ta tb a b ha hb
  have hra := strconv_Atoi_range ta a ha
  have hrb := strconv_Atoi_range tb b hb
  have hpa : ∀ m2 : Machine, execLine ("    push " ++ fmtInt a) m2 =
      .ok { m2 with stack := word a :: m2.stack } :=
    fun m2 => execLine_push_literal _ a m2 (strconv_Atoi_fmtInt a hra.1 hra.2)
  have hpb : ∀ m2 : Machine, execLine ("    push " ++ fmtInt b) m2 =
      .ok { m2 with stack := word b :: m2.stack } :=
    fun m2 => execLine_push_literal _ b m2 (strconv_Atoi_fmtInt b hrb.1 hrb.2)
  have e1 : ∀ m2 : Machine, execLine "    pop eax" m2 =
      match m2.stack with
      | [] => .unmodelled
      | v :: rest => .ok { m2 with eax := v, stack := rest } := fun _ => rfl
  have e2 : ∀ m2 : Machine, execLine "    pop ebx" m2 =
      match m2.stack with
      | [] => .unmodelled
      | v :: rest => .ok { m2 with ebx := v, stack := rest } := fun _ => rfl
  have e3 : ∀ m2 : Machine, execLine "    add [esp], eax" m2 =
      match m2.stack with
      | [] => .unmodelled
      | v :: rest => .ok { m2 with stack := word ((v : Int) + (m2.eax : Int)) :: rest } :=
    fun _ => rfl
  have e4 : ∀ m2 : Machine, execLine "    sub eax, ebx" m2 =
      .ok { m2 with eax := word ((m2.eax : Int) - (m2.ebx : Int)) } := fun _ => rfl
  have e5 : ∀ m2 : Machine, execLine "    imul eax, ebx" m2 =
      .ok { m2 with eax := word ((m2.eax : Int) * (m2.ebx : Int)) } := fun _ => rfl
  have e6 : ∀ m2 : Machine, execLine "    push eax" m2 =
      .ok { m2 with stack := m2.eax :: m2.stack } := fun _ => rfl
  refine ⟨?_, ?_, ?_, hadd, rfl⟩
  · rw [hadd]
    simp only [run, hpa, hpb, e1, e3, word_add]
  · rw [hsub]
    simp only [run, hpa, hpb, e1, e2, e4, e6, word_sub]
  · rw [hmul]
    simp only [run, hpa, hpb, e1, e2, e5, e6, word_mul, Int.mul_comm (word b : Int)]

/-- C16 at the tokens `3` and `4`, on a machine whose stack holds one cell. -/
theorem binary_arithmetic_effect_witness :
    strconv_Atoi "3" = some 3 ∧ strconv_Atoi "4" = some 4 ∧
    run (emittedLog ["3", "4", "+"]) ⟨0, 0, 0, [9]⟩ = .ok ⟨4, 0, 0, [7, 9]⟩ ∧
    run (emittedLog ["3", "4", "-"]) ⟨0, 0, 0, [9]⟩ =
      .ok ⟨4294967295, 4, 0, [4294967295, 9]⟩ ∧
    run (emittedLog ["3", "4", "*"]) ⟨0, 0, 0, [9]⟩ = .ok ⟨12, 3, 0, [12, 9]⟩ :=
  ⟨rfl, rfl,
    (binary_arithmetic_effect "3" "4" 3 4 ⟨0, 0, 0, [9]⟩ rfl rfl).1,
    (binary_arithmetic_effect "3" "4" 3 4 ⟨0, 0, 0, [9]⟩ rfl rfl).2.1,
    (binary_arithmetic_effect "3" "4" 3 4 ⟨0, 0, 0, [9]⟩ rfl rfl).2.2.1⟩

/-- C15, the code at the failing inputs: the lines of `mod` clear `edx` before
`idiv ebx`, so the dividend `edx:eax` is the unsigned reading of the second-from-top
operand.  `10 3 mod` leaves 1.  `-7 3 mod` leaves 0, where the truncating
remainder is -1 (encoded 4294967295): the dividend is 4294967289, which 3
divides.  `-7 1 mod` raises the divide error: the quotient 4294967289 does not
fit the signed 32-bit `eax`. -/
theorem mod_takes_dividend_unsigned :
    emittedLog ["-7", "3", "mod"] =
      [ "    push -7", "    push 3",
        "    xor edx, edx", "    pop ebx", "    pop eax", "    idiv ebx", "    push edx" ] ∧
    run (emittedLog ["10", "3", "mod"]) ⟨0, 0, 0, []⟩ = .ok ⟨3, 3, 1, [1]⟩ ∧
    run (emittedLog ["-7", "3", "mod"]) ⟨0, 0, 0, []⟩ = .ok ⟨1431655763, 3, 0, [0]⟩ ∧
    Int.tmod (-7) 3 = -1 ∧ word (-1) = 4294967295 ∧
    signed64 0 (word (-7)) = 4294967289 ∧
    run (emittedLog ["-7", "1", "mod"]) ⟨0, 0, 0, []⟩ = .divideError ∧
    Int.tmod (-7) 1 = 0 :=
  ⟨rfl, rfl, rfl, rfl, rfl, rfl, rfl, rfl⟩

end Forth
